import Mathlib

/-!
# SIL bridging layer and generic-parameter reference info

A shallow embedding of `include/swift/SIL/SILBridging.h` and
`lib/Sema/OpenedExistentials.h`, followed by theorems about the embedded
functions.

Conventions of the embedding:

* a call that ends in `llvm_unreachable`, a failed `llvm::cast` or a failed
  assertion stops the process; it is the `Outcome.fatal` result, a call that
  returns is `Outcome.ret`;
* a nullable handle (`OptionalBridgedInstruction`, `OptionalBridgedOperand`,
  `OptionalBridgedBasicBlock`) is an `Option`, `none` being the null handle;
* `SwiftInt` is a signed 64-bit integer, embedded as an `Int`; C `unsigned` is
  32 bits wide, embedded as a `Nat` reduced modulo `2 ^ 32`.
-/

namespace SILBridging

/-! ## Part I: definitions -/

/-- Result of a bridged call: the call returns a value, or it stops the
process (unreachable code, failed checked cast, failed assertion). -/
inductive Outcome (α : Type) where
  | ret (a : α)
  | fatal
  deriving DecidableEq, Repr

/-- The call returned. -/
def Outcome.isRet {α : Type} : Outcome α → Bool
  | .ret _ => true
  | .fatal => false

/-! ### Ownership (SILBridging.h 53-105) -/

/-- The cases of `swift::OwnershipKind` that `BridgedValue::getOwnership`
switches over; `Any` is the wildcard. -/
inductive OwnershipKind where
  | Any
  | Unowned
  | Owned
  | Guaranteed
  | None
  deriving DecidableEq, Repr

/-- The enum `BridgedValue::Ownership`. -/
inductive Ownership where
  | Unowned
  | Owned
  | Guaranteed
  | None
  deriving DecidableEq, Repr

/-- A lowered type, `swift::SILType`; only its identity matters here. -/
abbrev SILType := Nat

/-- The part of `swift::ValueBase` the bridge reads: the value's type and its
ownership kind. -/
structure ValueBase where
  type : SILType
  ownershipKind : OwnershipKind
  deriving DecidableEq, Repr

/-- The method `BridgedValue::getType`. -/
def BridgedValue.getType (v : ValueBase) : SILType := v.type

/-- The method `BridgedValue::getOwnership`: a switch over the value's
ownership kind whose `Any` case is `llvm_unreachable`. -/
def BridgedValue.getOwnership (v : ValueBase) : Outcome Ownership :=
  match v.ownershipKind with
  | .Any => .fatal
  | .Unowned => .ret .Unowned
  | .Owned => .ret .Owned
  | .Guaranteed => .ret .Guaranteed
  | .None => .ret .None

/-- The function `castToOwnership`. -/
def castToOwnership (ownership : Ownership) : OwnershipKind :=
  match ownership with
  | .Unowned => .Unowned
  | .Owned => .Owned
  | .Guaranteed => .Guaranteed
  | .None => .None

/-! ### Function signature (SILBridging.h 184-202) -/

/-- The width of C `unsigned`. -/
def unsignedBits : Nat := 32

/-- Conversion of an integer to C `unsigned`: reduction modulo `2 ^ 32`. -/
def toUnsigned (i : Int) : Nat := (i % (2 ^ unsignedBits : Nat)).toNat

/-- The part of `swift::SILFunctionType` the bridge reads: whether the
signature declares a receiver (self) parameter, its number of parameters and
the number of indirect results it declares. -/
structure SILFunctionType where
  hasSelfParam : Bool
  numParameters : Nat
  numIndirectFormalResults : Nat
  deriving DecidableEq, Repr

/-- Modelled from the spec: `SILFunctionConventions::getNumParameters`, whose
body is not among the sources; the parameter count of the signature, as a C
`unsigned`. -/
def SILFunctionConventions.getNumParameters (funcTy : SILFunctionType) : Nat :=
  funcTy.numParameters % 2 ^ unsignedBits

/-- Modelled from the spec: `SILFunctionConventions::getNumIndirectSILResults`,
whose body is not among the sources; the number of indirect results the
signature declares, which occupy the lowest argument indices, as a C
`unsigned`. -/
def SILFunctionConventions.getNumIndirectSILResults (funcTy : SILFunctionType) : Nat :=
  funcTy.numIndirectFormalResults % 2 ^ unsignedBits

/-- Modelled from the spec: `SILFunctionConventions::getNumSILArguments`,
whose body is not among the sources; the indirect results followed by the
parameters, as a C `unsigned`. -/
def SILFunctionConventions.getNumSILArguments (funcTy : SILFunctionType) : Nat :=
  (SILFunctionConventions.getNumIndirectSILResults funcTy +
    SILFunctionConventions.getNumParameters funcTy) % 2 ^ unsignedBits

/-- Handle of a basic block. -/
abbrev BlockId := Nat

/-- Handle of an instruction. -/
abbrev InstId := Nat

/-- Handle of a function. -/
abbrev FuncId := Nat

/-- The part of `swift::SILFunction` the bridge reads: the lowered function
type and the ordered list of blocks. -/
structure SILFunction where
  loweredFunctionType : SILFunctionType
  blocks : List BlockId
  deriving DecidableEq, Repr

/-- The method `BridgedFunction::getNumIndirectFormalResults`. -/
def BridgedFunction.getNumIndirectFormalResults (f : SILFunction) : Int :=
  ((f.loweredFunctionType.numIndirectFormalResults % 2 ^ unsignedBits : Nat) : Int)

/-- The method `BridgedFunction::getNumParameters`. -/
def BridgedFunction.getNumParameters (f : SILFunction) : Int :=
  ((f.loweredFunctionType.numParameters % 2 ^ unsignedBits : Nat) : Int)

/-- The method `BridgedFunction::getSelfArgumentIndex`: `-1` without a
receiver; otherwise the sum of the two `unsigned` counts minus one, computed in
`unsigned` arithmetic and widened to `SwiftInt`. -/
def BridgedFunction.getSelfArgumentIndex (f : SILFunction) : Int :=
  let fTy := f.loweredFunctionType
  if !fTy.hasSelfParam then
    -1
  else
    (((SILFunctionConventions.getNumParameters fTy +
        SILFunctionConventions.getNumIndirectSILResults fTy +
        (2 ^ unsignedBits - 1)) % 2 ^ unsignedBits : Nat) : Int)

/-- The method `BridgedFunction::getNumSILArguments`. -/
def BridgedFunction.getNumSILArguments (f : SILFunction) : Int :=
  ((SILFunctionConventions.getNumSILArguments f.loweredFunctionType : Nat) : Int)

/-! ### Blocks and instruction order (SILBridging.h 341-355, 648-712, 949-955) -/

/-- The part of `swift::SILBasicBlock` the bridge reads: the ordered list of
instructions and the ordered list of block arguments. -/
structure SILBasicBlock where
  insts : List InstId
  args : List ValueBase
  deriving DecidableEq, Repr

/-- The part of the module that the navigation accessors read: the functions
and blocks by handle, and the parent links of blocks and instructions. -/
structure SILModule where
  function : FuncId → SILFunction
  block : BlockId → SILBasicBlock
  blockParent : BlockId → FuncId
  instParent : InstId → BlockId

/-- The step `std::next` from the iterator of node `x` of the sequence `l`,
dereferenced: null when the iterator reached is `end()`. -/
def iterNext {α : Type} [DecidableEq α] (l : List α) (x : α) : Option α :=
  let iter := l.indexOf x + 1
  if iter = l.length then none else l[iter]?

/-- The method `BridgedInstruction::getNext`: the iterator after the
instruction in its parent block, null when that iterator is the end of the
block. -/
def BridgedInstruction.getNext (m : SILModule) (inst : InstId) : Option InstId :=
  iterNext (m.block (m.instParent inst)).insts inst

/-- The method `BridgedInstruction::getPrevious`: the same step over the
reverse order of the parent block. -/
def BridgedInstruction.getPrevious (m : SILModule) (inst : InstId) : Option InstId :=
  iterNext (m.block (m.instParent inst)).insts.reverse inst

/-- The method `BridgedBasicBlock::getNext`. -/
def BridgedBasicBlock.getNext (m : SILModule) (b : BlockId) : Option BlockId :=
  iterNext (m.function (m.blockParent b)).blocks b

/-- The method `BridgedBasicBlock::getPrevious`. -/
def BridgedBasicBlock.getPrevious (m : SILModule) (b : BlockId) : Option BlockId :=
  iterNext (m.function (m.blockParent b)).blocks.reverse b

/-- The method `BridgedBasicBlock::getFirstInst`. -/
def BridgedBasicBlock.getFirstInst (bb : SILBasicBlock) : Option InstId :=
  if bb.insts.isEmpty then none else bb.insts.head?

/-- The method `BridgedBasicBlock::getLastInst`. -/
def BridgedBasicBlock.getLastInst (bb : SILBasicBlock) : Option InstId :=
  if bb.insts.isEmpty then none else bb.insts.getLast?

/-- The method `BridgedFunction::getFirstBlock`. -/
def BridgedFunction.getFirstBlock (f : SILFunction) : Option BlockId :=
  if f.blocks.isEmpty then none else f.blocks.head?

/-- The method `BridgedFunction::getLastBlock`. -/
def BridgedFunction.getLastBlock (f : SILFunction) : Option BlockId :=
  if f.blocks.isEmpty then none else f.blocks.getLast?

/-! ### Operands and use lists (SILBridging.h 118-147, 365-372, 929-939) -/

/-- Handle of a value. -/
abbrev ValueId := Nat

/-- Handle of an operand (`swift::Operand *`). The operands of an instruction
are the elements of its operand array, so an operand is named by its user and
its slot in that array. -/
structure Operand where
  user : InstId
  slot : Nat
  deriving DecidableEq, Repr

/-- Modelled from the spec: the operand array of `swift::SILInstruction` and
the use list of `swift::ValueBase`, not among the sources. It is the part of
the module that the operand accessors read and `setOperand` writes: the value
held by each operand slot of each instruction, and the use list of each value,
first use at the head. -/
structure UseDef where
  operands : InstId → List ValueId
  uses : ValueId → List Operand

/-- The module without operands. -/
def UseDef.empty : UseDef :=
  { operands := fun _ => [], uses := fun _ => [] }

/-- The struct `BridgedOperandArray`. -/
structure BridgedOperandArray where
  base : Operand
  count : Int
  deriving DecidableEq, Repr

/-- The method `OptionalBridgedOperand::advancedBy`. -/
def OptionalBridgedOperand.advancedBy (base : Operand) (index : Nat) : Operand :=
  { user := base.user, slot := base.slot + index }

/-- The operands an operand array denotes: `base.advancedBy(i)` for
`0 <= i < count`. -/
def BridgedOperandArray.toList (a : BridgedOperandArray) : List Operand :=
  (List.range a.count.toNat).map (OptionalBridgedOperand.advancedBy a.base)

/-- The method `BridgedInstruction::getOperands`. -/
def BridgedInstruction.getOperands (s : UseDef) (inst : InstId) : BridgedOperandArray :=
  { base := { user := inst, slot := 0 }, count := ((s.operands inst).length : Int) }

/-- The method `BridgedOperand::getValue`; `none` for a handle that is no
operand of the module. -/
def BridgedOperand.getValue (s : UseDef) (op : Operand) : Option ValueId :=
  (s.operands op.user)[op.slot]?

/-- The method `BridgedOperand::getUser`. -/
def BridgedOperand.getUser (op : Operand) : InstId := op.user

/-- The method `BridgedValue::getFirstUse`: the head of the use list, null for
an empty list. -/
def BridgedValue.getFirstUse (s : UseDef) (v : ValueId) : Option Operand :=
  (s.uses v).head?

/-- The method `BridgedOperand::getNextUse`: the operand after this one in the
use list of its value, null at the end of the list. -/
def BridgedOperand.getNextUse (s : UseDef) (op : Operand) : Option Operand :=
  match BridgedOperand.getValue s op with
  | none => none
  | some v => iterNext (s.uses v) op

/-- The traversal of a use list: from a first use, follow `getNextUse` until
the null result, collecting the operands visited. The fuel bounds the number of
steps; `none` is a traversal that did not finish within it. -/
def useTraversal (s : UseDef) : Nat → Option Operand → Option (List Operand)
  | _, none => some []
  | 0, some _ => none
  | fuel + 1, some op =>
    (useTraversal s fuel (BridgedOperand.getNextUse s op)).map (fun rest => op :: rest)

/-- The number of uses of a value: the length of its use list. -/
def numUses (s : UseDef) (v : ValueId) : Nat := (s.uses v).length

/-- Modelled from the spec: the constructor of `swift::Operand`, not among the
sources. A new operand of `inst` holding `v` takes the next slot of the operand
array and is linked at the head of the use list of `v`. -/
def Operand.ctor (s : UseDef) (inst : InstId) (v : ValueId) : UseDef :=
  { operands := Function.update s.operands inst (s.operands inst ++ [v])
    uses := Function.update s.uses v
      ({ user := inst, slot := (s.operands inst).length } :: s.uses v) }

/-- Modelled from the spec: `swift::Operand::set`, not among the sources. The
operand is (1) unlinked from the use list of the value it holds, (2) spliced
into the use list of the new value, at its head, and (3) keeps its slot. -/
def Operand.set (s : UseDef) (op : Operand) (newValue : ValueId) : UseDef :=
  match (s.operands op.user)[op.slot]? with
  | none => s
  | some oldValue =>
    let unlinked := Function.update s.uses oldValue ((s.uses oldValue).erase op)
    { operands :=
        Function.update s.operands op.user ((s.operands op.user).set op.slot newValue)
      uses := Function.update unlinked newValue (op :: unlinked newValue) }

/-- Modelled from the spec: `swift::SILInstruction::setOperand(unsigned, SILValue)`,
not among the sources. It sets element `Num` of the operand array; an operand
slot out of range is fatal and leaves the module as it was. -/
def SILInstruction.setOperand (s : UseDef) (inst : InstId) (Num : Nat)
    (V : ValueId) : Outcome UseDef :=
  if Num < (s.operands inst).length then
    .ret (Operand.set s { user := inst, slot := Num } V)
  else
    .fatal

/-- The method `BridgedInstruction::setOperand`: the `SwiftInt` index is
converted to `unsigned` and passed on. -/
def BridgedInstruction.setOperand (s : UseDef) (inst : InstId) (index : Int)
    (value : ValueId) : Outcome UseDef :=
  SILInstruction.setOperand s inst (toUnsigned index) value

/-- Modelled from the spec: `PassContext_eraseInstruction`, declared in the
header without a body. Removing an instruction unlinks all its operands from
the use lists of their values, together with the removal. -/
def PassContext_eraseInstruction (s : UseDef) (inst : InstId) : UseDef :=
  { operands := Function.update s.operands inst []
    uses := fun v => (s.uses v).filter (fun op => op.user != inst) }

/-- The states of the module built from the one without operands by
constructing operands, by `BridgedInstruction::setOperand` and by erasing
instructions. -/
inductive UseDef.Reachable : UseDef → Prop where
  | empty : UseDef.Reachable UseDef.empty
  | ctor (s : UseDef) (inst : InstId) (v : ValueId) :
      UseDef.Reachable s → UseDef.Reachable (Operand.ctor s inst v)
  | setOperand (s s' : UseDef) (inst : InstId) (index : Int) (value : ValueId) :
      UseDef.Reachable s → BridgedInstruction.setOperand s inst index value = .ret s' →
      UseDef.Reachable s'
  | erase (s : UseDef) (inst : InstId) :
      UseDef.Reachable s → UseDef.Reachable (PassContext_eraseInstruction s inst)

/-- Use-def consistency: no use list repeats an operand, and an operand is on
the use list of `v` exactly when it holds `v`. -/
def UseDef.Consistent (s : UseDef) : Prop :=
  (∀ v, (s.uses v).Nodup) ∧
    ∀ v op, op ∈ s.uses v ↔ BridgedOperand.getValue s op = some v

/-! ### Block arguments (SILBridging.h 700-712) -/

/-- The method `BridgedBasicBlock::getNumArguments`. -/
def BridgedBasicBlock.getNumArguments (bb : SILBasicBlock) : Int :=
  (bb.args.length : Int)

/-- The method `BridgedBasicBlock::getArgument`; `none` for an index that is
no argument of the block. -/
def BridgedBasicBlock.getArgument (bb : SILBasicBlock) (index : Int) : Option ValueBase :=
  bb.args[toUnsigned index]?

/-- Modelled from the spec: `swift::SILBasicBlock::createPhiArgument`, not
among the sources. It creates a new block parameter with the declared type and
ownership and appends it to the argument list of the block. -/
def SILBasicBlock.createPhiArgument (bb : SILBasicBlock) (type : SILType)
    (kind : OwnershipKind) : SILBasicBlock × ValueBase :=
  let arg : ValueBase := { type := type, ownershipKind := kind }
  ({ bb with args := bb.args ++ [arg] }, arg)

/-- The method `BridgedBasicBlock::addBlockArgument`: the block after the call
and the argument returned. -/
def BridgedBasicBlock.addBlockArgument (bb : SILBasicBlock) (type : SILType)
    (ownership : Ownership) : SILBasicBlock × ValueBase :=
  SILBasicBlock.createPhiArgument bb type (castToOwnership ownership)

/-! ### Kind-specific accessors (SILBridging.h 335-339, 435-507, 590-592) -/

/-- The instruction kinds that the accessors modelled here target, and one
kind that none of them targets. -/
inductive SILInstructionKind where
  | FunctionRefInst
  | DynamicFunctionRefInst
  | PreviousDynamicFunctionRefInst
  | IntegerLiteralInst
  | TupleExtractInst
  | TupleElementAddrInst
  | StructExtractInst
  | StructInst
  | StructElementAddrInst
  | ProjectBoxInst
  | EnumInst
  | UncheckedEnumDataInst
  | InitEnumDataAddrInst
  | UncheckedTakeEnumDataAddrInst
  | InjectEnumAddrInst
  | RefElementAddrInst
  | PartialApplyInst
  | ApplyInst
  | CondBranchInst
  | DebugStepInst
  deriving DecidableEq, Repr

/-- The classes `I` that `getAs<I>` is instantiated with here: the root class,
the abstract class `FunctionRefBaseInst`, and the class of a single kind. -/
inductive InstClass where
  | SILInstruction
  | FunctionRefBaseInst
  | final (kind : SILInstructionKind)
  deriving DecidableEq, Repr

/-- Modelled from the spec: the `classof` tests behind `llvm::cast`, not among
the sources. An instruction is of class `I` when its kind is `I` or a sub-kind
of `I`; the sub-kinds of `FunctionRefBaseInst` are `FunctionRefInst`,
`DynamicFunctionRefInst` and `PreviousDynamicFunctionRefInst`. -/
def InstClass.classof : InstClass → SILInstructionKind → Bool
  | .SILInstruction, _ => true
  | .FunctionRefBaseInst, k =>
    k == .FunctionRefInst || k == .DynamicFunctionRefInst ||
      k == .PreviousDynamicFunctionRefInst
  | .final kind, k => k == kind

/-- The part of `swift::SILInstruction` and its subclasses that the accessors
read: the kind and the payload fields. -/
structure SILInstruction where
  kind : SILInstructionKind
  referencedFunction : FuncId
  value : Int
  fieldIndex : Nat
  fieldIsLet : Bool
  uniqueNonTrivialFieldValue : Option ValueId
  caseIndex : Nat
  numArguments : Nat
  numTrueArgs : Nat
  deriving DecidableEq, Repr

/-- Apply a function to the value a call returned. -/
def Outcome.map {α β : Type} (f : α → β) : Outcome α → Outcome β
  | .ret a => .ret (f a)
  | .fatal => .fatal

/-- The method `BridgedInstruction::getAs<I>`: `llvm::cast<I>`, a checked
downcast that is fatal on an instruction that is not of class `I`. -/
def BridgedInstruction.getAs (I : InstClass) (inst : SILInstruction) :
    Outcome SILInstruction :=
  if I.classof inst.kind then .ret inst else .fatal

/-- The method `BridgedInstruction::getInst`. -/
def BridgedInstruction.getInst (inst : SILInstruction) : Outcome SILInstruction :=
  BridgedInstruction.getAs .SILInstruction inst

/-- The method `BridgedInstruction::FunctionRefBaseInst_getReferencedFunction`. -/
def BridgedInstruction.FunctionRefBaseInst_getReferencedFunction (inst : SILInstruction) :
    Outcome FuncId :=
  (BridgedInstruction.getAs .FunctionRefBaseInst inst).map (fun i => i.referencedFunction)

/-- The method `BridgedInstruction::IntegerLiteralInst_getValue`. -/
def BridgedInstruction.IntegerLiteralInst_getValue (inst : SILInstruction) : Outcome Int :=
  (BridgedInstruction.getAs (.final .IntegerLiteralInst) inst).map (fun i => i.value)

/-- The method `BridgedInstruction::TupleExtractInst_fieldIndex`. -/
def BridgedInstruction.TupleExtractInst_fieldIndex (inst : SILInstruction) : Outcome Int :=
  (BridgedInstruction.getAs (.final .TupleExtractInst) inst).map (fun i => (i.fieldIndex : Int))

/-- The method `BridgedInstruction::TupleElementAddrInst_fieldIndex`. -/
def BridgedInstruction.TupleElementAddrInst_fieldIndex (inst : SILInstruction) : Outcome Int :=
  (BridgedInstruction.getAs (.final .TupleElementAddrInst) inst).map
    (fun i => (i.fieldIndex : Int))

/-- The method `BridgedInstruction::StructExtractInst_fieldIndex`. -/
def BridgedInstruction.StructExtractInst_fieldIndex (inst : SILInstruction) : Outcome Int :=
  (BridgedInstruction.getAs (.final .StructExtractInst) inst).map (fun i => (i.fieldIndex : Int))

/-- The method `BridgedInstruction::StructInst_getUniqueNonTrivialFieldValue`;
the result is an optional value. -/
def BridgedInstruction.StructInst_getUniqueNonTrivialFieldValue (inst : SILInstruction) :
    Outcome (Option ValueId) :=
  (BridgedInstruction.getAs (.final .StructInst) inst).map
    (fun i => i.uniqueNonTrivialFieldValue)

/-- The method `BridgedInstruction::StructElementAddrInst_fieldIndex`. -/
def BridgedInstruction.StructElementAddrInst_fieldIndex (inst : SILInstruction) : Outcome Int :=
  (BridgedInstruction.getAs (.final .StructElementAddrInst) inst).map
    (fun i => (i.fieldIndex : Int))

/-- The method `BridgedInstruction::ProjectBoxInst_fieldIndex`. -/
def BridgedInstruction.ProjectBoxInst_fieldIndex (inst : SILInstruction) : Outcome Int :=
  (BridgedInstruction.getAs (.final .ProjectBoxInst) inst).map (fun i => (i.fieldIndex : Int))

/-- The method `BridgedInstruction::EnumInst_caseIndex`. -/
def BridgedInstruction.EnumInst_caseIndex (inst : SILInstruction) : Outcome Int :=
  (BridgedInstruction.getAs (.final .EnumInst) inst).map (fun i => (i.caseIndex : Int))

/-- The method `BridgedInstruction::UncheckedEnumDataInst_caseIndex`. -/
def BridgedInstruction.UncheckedEnumDataInst_caseIndex (inst : SILInstruction) : Outcome Int :=
  (BridgedInstruction.getAs (.final .UncheckedEnumDataInst) inst).map
    (fun i => (i.caseIndex : Int))

/-- The method `BridgedInstruction::InitEnumDataAddrInst_caseIndex`. -/
def BridgedInstruction.InitEnumDataAddrInst_caseIndex (inst : SILInstruction) : Outcome Int :=
  (BridgedInstruction.getAs (.final .InitEnumDataAddrInst) inst).map
    (fun i => (i.caseIndex : Int))

/-- The method `BridgedInstruction::UncheckedTakeEnumDataAddrInst_caseIndex`. -/
def BridgedInstruction.UncheckedTakeEnumDataAddrInst_caseIndex (inst : SILInstruction) :
    Outcome Int :=
  (BridgedInstruction.getAs (.final .UncheckedTakeEnumDataAddrInst) inst).map
    (fun i => (i.caseIndex : Int))

/-- The method `BridgedInstruction::InjectEnumAddrInst_caseIndex`. -/
def BridgedInstruction.InjectEnumAddrInst_caseIndex (inst : SILInstruction) : Outcome Int :=
  (BridgedInstruction.getAs (.final .InjectEnumAddrInst) inst).map
    (fun i => (i.caseIndex : Int))

/-- The method `BridgedInstruction::RefElementAddrInst_fieldIndex`. -/
def BridgedInstruction.RefElementAddrInst_fieldIndex (inst : SILInstruction) : Outcome Int :=
  (BridgedInstruction.getAs (.final .RefElementAddrInst) inst).map
    (fun i => (i.fieldIndex : Int))

/-- The method `BridgedInstruction::RefElementAddrInst_fieldIsLet`: the flag,
widened to `SwiftInt`. -/
def BridgedInstruction.RefElementAddrInst_fieldIsLet (inst : SILInstruction) : Outcome Int :=
  (BridgedInstruction.getAs (.final .RefElementAddrInst) inst).map
    (fun i => if i.fieldIsLet then 1 else 0)

/-- The method `BridgedInstruction::PartialApplyInst_numArguments`. -/
def BridgedInstruction.PartialApplyInst_numArguments (inst : SILInstruction) : Outcome Int :=
  (BridgedInstruction.getAs (.final .PartialApplyInst) inst).map
    (fun i => (i.numArguments : Int))

/-- The method `BridgedInstruction::ApplyInst_numArguments`. -/
def BridgedInstruction.ApplyInst_numArguments (inst : SILInstruction) : Outcome Int :=
  (BridgedInstruction.getAs (.final .ApplyInst) inst).map (fun i => (i.numArguments : Int))

/-- The method `BridgedInstruction::CondBranchInst_getNumTrueArgs`. -/
def BridgedInstruction.CondBranchInst_getNumTrueArgs (inst : SILInstruction) : Outcome Int :=
  (BridgedInstruction.getAs (.final .CondBranchInst) inst).map (fun i => (i.numTrueArgs : Int))

/-- A checked accessor of class `I` reading `read`: fatal on an instruction
that is not of class `I`, and the payload read from an instruction that is. -/
def CheckedAccessor {α : Type} (I : InstClass) (accessor : SILInstruction → Outcome α)
    (read : SILInstruction → α) : Prop :=
  ∀ inst : SILInstruction,
    (I.classof inst.kind = false → accessor inst = .fatal) ∧
    (I.classof inst.kind = true → accessor inst = .ret (read inst))

/-! ### Traversals and layout invariants -/

/-- The forward traversal of a sequence: from a first node, follow `next`
until the null result, collecting the nodes visited. The fuel bounds the number
of steps; `none` is a traversal that did not finish within it. -/
def followNext {α : Type} (next : α → Option α) : Nat → Option α → Option (List α)
  | _, none => some []
  | 0, some _ => none
  | fuel + 1, some x => (followNext next fuel (next x)).map (fun rest => x :: rest)

/-- The layout invariants of the data model: the instruction order of a block
and the block order of a function have no repetition, an instruction in the
order of a block has that block as its parent, and a block in the order of a
function has that function as its parent. -/
def SILModule.WellFormed (m : SILModule) : Prop :=
  (∀ b, (m.block b).insts.Nodup) ∧
  (∀ b i, i ∈ (m.block b).insts → m.instParent i = b) ∧
  (∀ f, (m.function f).blocks.Nodup) ∧
  (∀ f b, b ∈ (m.function f).blocks → m.blockParent b = f)

/-! ### Switch on enum and key paths (SILBridging.h 551-558, 594-616) -/

/-- The width of `size_t`. -/
def sizeBits : Nat := 64

/-- Conversion of an integer to `size_t`: reduction modulo `2 ^ 64`. -/
def toSizeT (i : Int) : Nat := (i % (2 ^ sizeBits : Nat)).toNat

/-- An instruction as an accessor that casts to class `I` meets it: an
instruction of class `I`, with the fields of that class, or an instruction of
another class. -/
inductive InstructionOf (I : Type) where
  | isa (inst : I)
  | other
  deriving DecidableEq, Repr

/-- The method `BridgedInstruction::getAs<I>` on an instruction seen from class
`I`: `llvm::cast<I>`, fatal on an instruction of another class. -/
def BridgedInstruction.getAsClass {I : Type} : InstructionOf I → Outcome I
  | .isa inst => .ret inst
  | .other => .fatal

/-- Handle of an enum element declaration. -/
abbrev EnumElementDecl := Nat

/-- The part of `swift::SwitchEnumInst` the bridge reads: the cases in the
order of the instruction, each an enum element and its destination block. -/
structure SwitchEnumInst where
  cases : List (EnumElementDecl × BlockId)
  deriving DecidableEq, Repr

/-- The method `BridgedInstruction::SwitchEnumInst_getNumCases`; the count is a
C `unsigned`. -/
def BridgedInstruction.SwitchEnumInst_getNumCases (inst : InstructionOf SwitchEnumInst) :
    Outcome Int :=
  (BridgedInstruction.getAsClass inst).map
    (fun seInst => ((seInst.cases.length % 2 ^ unsignedBits : Nat) : Int))

/-- The method `BridgedInstruction::SwitchEnumInst_getCaseIndex`. The mapping
`getCaseIndex` is `SILModule::getCaseIndex` of the module of the instruction,
from an enum element to its discriminant index; `getCase(idx)` takes a C
`unsigned` and a position that is no case of the instruction is fatal. -/
def BridgedInstruction.SwitchEnumInst_getCaseIndex (getCaseIndex : EnumElementDecl → Nat)
    (inst : InstructionOf SwitchEnumInst) (idx : Int) : Outcome Int :=
  match BridgedInstruction.getAsClass inst with
  | .fatal => .fatal
  | .ret seInst =>
    match seInst.cases[toUnsigned idx]? with
    | none => .fatal
    | some theCase => .ret ((getCaseIndex theCase.1 : Nat) : Int)

/-- A reference that `visitReferencedFunctionsAndMethods` reports: a function,
or a method named by a declaration reference. -/
inductive KeyPathReference where
  | function (func : FuncId)
  | method (declRef : Nat)
  deriving DecidableEq, Repr

/-- The part of `swift::KeyPathPatternComponent` the bridge reads: the
references of the component, in the order in which they are visited. -/
structure KeyPathPatternComponent where
  referenced : List KeyPathReference
  deriving DecidableEq, Repr

/-- The functions a component references, in visit order. -/
def KeyPathPatternComponent.referencedFunctions (comp : KeyPathPatternComponent) :
    List FuncId :=
  comp.referenced.filterMap (fun r =>
    match r with
    | .function func => some func
    | .method _ => none)

/-- The part of `swift::KeyPathPattern` the bridge reads: its components. -/
structure KeyPathPattern where
  components : List KeyPathPatternComponent
  deriving DecidableEq, Repr

/-- The part of `swift::KeyPathInst` the bridge reads: its pattern, which may
be null. -/
structure KeyPathInst where
  pattern : Option KeyPathPattern
  deriving DecidableEq, Repr

/-- The constant `KeyPathFunctionResults::maxFunctions`. -/
def maxFunctions : Nat := 5

/-- The struct `KeyPathFunctionResults`: an array of `maxFunctions` functions
and a count. -/
structure KeyPathFunctionResults where
  functions : List FuncId
  numFunctions : Int
  deriving DecidableEq, Repr

/-- The visit of a list of references: each is passed to the callback for its
sort, in order, with the state the callbacks share; a fatal callback ends the
visit. -/
def visitReferences {σ : Type} (forFunction : σ → FuncId → Outcome σ)
    (forMethod : σ → Nat → Outcome σ) : List KeyPathReference → σ → Outcome σ
  | [], state => .ret state
  | .function func :: rest, state =>
    match forFunction state func with
    | .fatal => .fatal
    | .ret state' => visitReferences forFunction forMethod rest state'
  | .method declRef :: rest, state =>
    match forMethod state declRef with
    | .fatal => .fatal
    | .ret state' => visitReferences forFunction forMethod rest state'

/-- The method `KeyPathPatternComponent::visitReferencedFunctionsAndMethods`. -/
def KeyPathPatternComponent.visitReferencedFunctionsAndMethods {σ : Type}
    (comp : KeyPathPatternComponent) (forFunction : σ → FuncId → Outcome σ)
    (forMethod : σ → Nat → Outcome σ) (state : σ) : Outcome σ :=
  visitReferences forFunction forMethod comp.referenced state

/-- The method `BridgedInstruction::KeyPathInst_getNumComponents`. -/
def BridgedInstruction.KeyPathInst_getNumComponents (inst : InstructionOf KeyPathInst) :
    Outcome Int :=
  (BridgedInstruction.getAsClass inst).map (fun kp =>
    match kp.pattern with
    | some pattern => (pattern.components.length : Int)
    | none => 0)

/-- The function callback of `KeyPathInst_getReferencedFunctions`: the
assertion, then the store at `numFunctions` and its increment. -/
def KeyPathFunctionResults.addFunction (results : KeyPathFunctionResults) (func : FuncId) :
    Outcome KeyPathFunctionResults :=
  if results.numFunctions < (maxFunctions : Int) then
    .ret { functions := results.functions.set results.numFunctions.toNat func
           numFunctions := results.numFunctions + 1 }
  else
    .fatal

/-- The method `BridgedInstruction::KeyPathInst_getReferencedFunctions`; the
result is the struct that `results` points to after the call. The index of
`getComponents()[componentIdx]` is a `size_t`; a null pattern and an index out
of range do not return and are fatal. -/
def BridgedInstruction.KeyPathInst_getReferencedFunctions (inst : InstructionOf KeyPathInst)
    (componentIdx : Int) (results : KeyPathFunctionResults) :
    Outcome KeyPathFunctionResults :=
  match BridgedInstruction.getAsClass inst with
  | .fatal => .fatal
  | .ret kp =>
    match kp.pattern with
    | none => .fatal
    | some pattern =>
      match pattern.components[toSizeT componentIdx]? with
      | none => .fatal
      | some comp =>
        comp.visitReferencedFunctionsAndMethods KeyPathFunctionResults.addFunction
          (fun state _ => .ret state) { results with numFunctions := 0 }

/-! ### Structural edits (SILBridging.h 847-851, 865, 885-927, 957-961) -/

/-- The sequence `l` with `x` inserted right before its element `a`. -/
def insertBefore {α : Type} [DecidableEq α] (l : List α) (a x : α) : List α :=
  l.take (l.indexOf a) ++ x :: l.drop (l.indexOf a)

/-- The sequence `l` with `x` inserted right after its element `a`. -/
def insertAfter {α : Type} [DecidableEq α] (l : List α) (a x : α) : List α :=
  l.take (l.indexOf a + 1) ++ x :: l.drop (l.indexOf a + 1)

/-- Modelled from the spec: `PassContext_splitBlock`, declared in the header
without a body. Given an instruction, its block is split into two: the
instruction and everything after it move, in order, into a new block placed
right after the block in the block order of the function; no terminator and no
successor edge is touched. `newBlock` is the handle of the block the split
allocates; the result is the module after the call and that handle. -/
def PassContext_splitBlock (m : SILModule) (newBlock : BlockId) (inst : InstId) :
    SILModule × BlockId :=
  let b := m.instParent inst
  let bb := m.block b
  let pos := bb.insts.indexOf inst
  let f := m.blockParent b
  let fn := m.function f
  ({ function :=
       Function.update m.function f { fn with blocks := insertAfter fn.blocks b newBlock }
     block :=
       Function.update (Function.update m.block b { bb with insts := bb.insts.take pos })
         newBlock { insts := bb.insts.drop pos, args := [] }
     blockParent := Function.update m.blockParent newBlock f
     instParent := fun i => if i ∈ bb.insts.drop pos then newBlock else m.instParent i },
   newBlock)

/-- Handle of a successor edge (`const swift::SILSuccessor *`): an element of
the successor array of its terminator. -/
structure BridgedSuccessor where
  containingInst : InstId
  index : Nat
  deriving DecidableEq, Repr

/-- The method `BridgedSuccessor::getTargetBlock`, over the successor arrays of
the terminators; `none` for a handle that is no successor edge. -/
def BridgedSuccessor.getTargetBlock (successors : InstId → List BlockId)
    (succ : BridgedSuccessor) : Option BlockId :=
  (successors succ.containingInst)[succ.index]?

/-- The method `BridgedSuccessor::getContainingInst`. -/
def BridgedSuccessor.getContainingInst (succ : BridgedSuccessor) : InstId :=
  succ.containingInst

/-- Modelled from the spec: the predecessors of a block are the successor
edges that target it, of the terminators that are in a block of the module. -/
def isPredecessor (successors : InstId → List BlockId) (m : SILModule) (b : BlockId)
    (succ : BridgedSuccessor) : Bool :=
  decide (BridgedSuccessor.getTargetBlock successors succ = some b) &&
    decide (succ.containingInst ∈ (m.block (m.instParent succ.containingInst)).insts)

/-- The struct `BridgedBuilder`: the two optional insertion points and the
location. -/
structure BridgedBuilder where
  insertBefore : Option InstId
  insertAtEnd : Option BlockId
  loc : Nat
  deriving DecidableEq, Repr

/-- Modelled from the spec: the creation operations `SILBuilder_create...`,
declared in the header without a body. With the insertion point before an
instruction, the new instruction is inserted right before it in its block; with
the insertion point at the end of a block, it is appended to the block, and the
creation fails if the block already ends in a terminator. `isTermInst` tells
the terminators among the instructions and `newInst` is the handle of the
instruction the creation allocates; the result is the module after the call
and that handle. -/
def SILBuilder_create (isTermInst : InstId → Bool) (m : SILModule) (builder : BridgedBuilder)
    (newInst : InstId) : Outcome (SILModule × InstId) :=
  match builder.insertBefore with
  | some I =>
    let b := m.instParent I
    let bb := m.block b
    .ret ({ m with
            block := Function.update m.block b
              { bb with insts := insertBefore bb.insts I newInst }
            instParent := Function.update m.instParent newInst b }, newInst)
  | none =>
    match builder.insertAtEnd with
    | none => .fatal
    | some B =>
      let bb := m.block B
      if (bb.insts.getLast?.map isTermInst).getD false then
        .fatal
      else
        .ret ({ m with
                block := Function.update m.block B { bb with insts := bb.insts ++ [newInst] }
                instParent := Function.update m.instParent newInst B }, newInst)

/-- Modelled from the spec: `swift::SILInstruction::isStaticInitializerInst`,
not among the sources. A static-initializer instruction is a node outside any
block: the block its parent link names does not hold it. -/
def SILInstruction.isStaticInitializerInst (m : SILModule) (inst : InstId) : Bool :=
  decide (inst ∉ (m.block (m.instParent inst)).insts)

/-- The method `BridgedInstruction::getParent`: the assertion that the
instruction is no static-initializer instruction, then its parent block. -/
def BridgedInstruction.getParent (m : SILModule) (inst : InstId) : Outcome BlockId :=
  if !SILInstruction.isStaticInitializerInst m inst then
    .ret (m.instParent inst)
  else
    .fatal

/-! ### Example modules -/

/-- A module with one function and one block holding the instructions
`10, 11, 12` in that order. -/
def moduleOfThree : SILModule :=
  { function := fun _ =>
      { loweredFunctionType :=
          { hasSelfParam := false, numParameters := 0, numIndirectFormalResults := 0 }
        blocks := [0] }
    block := fun _ => { insts := [10, 11, 12], args := [] }
    blockParent := fun _ => 0
    instParent := fun _ => 0 }

/-- A module of two instructions: instruction 0 holds value 5, instruction 1
holds values 5 and 6. -/
def threeOperands : UseDef :=
  Operand.ctor (Operand.ctor (Operand.ctor UseDef.empty 0 5) 1 5) 1 6

/-- A module of one instruction with two operands, holding values 5 and 6. -/
def twoOperands : UseDef := Operand.ctor (Operand.ctor UseDef.empty 0 5) 0 6

/-- A module of one instruction with one operand, holding value 5. -/
def oneOperand : UseDef := Operand.ctor UseDef.empty 0 5

/-- A module with one function of two blocks: block 0 holds the instructions
`10, 11, 12, 13` and block 1 holds the instruction `20`. -/
def moduleOfTwoBlocks : SILModule :=
  { function := fun f =>
      { loweredFunctionType :=
          { hasSelfParam := false, numParameters := 0, numIndirectFormalResults := 0 }
        blocks := if f = 0 then [0, 1] else [] }
    block := fun b =>
      { insts := if b = 0 then [10, 11, 12, 13] else if b = 1 then [20] else []
        args := [] }
    blockParent := fun _ => 0
    instParent := fun i => if i = 20 then 1 else 0 }

end SILBridging

namespace OpenedExistentials

/-! ### Generic-parameter reference info (OpenedExistentials.h 25-99) -/

/-- Modelled from the spec: the enumeration `swift::TypePosition` of
`swift/AST/Type.h`, which `OpenedExistentials.h` includes and which is not
among the sources. Its positions are the four variance positions; they are
one-hot flags, as their use as masks on the 4-bit fields and the bound
`NumTypePositions <= NumTypePositionBits` require. -/
inductive TypePosition where
  | Covariant
  | Contravariant
  | Invariant
  | Shape
  deriving DecidableEq, Repr

/-- The flag value of a position. -/
def TypePosition.value : TypePosition → Nat
  | .Covariant => 1
  | .Contravariant => 2
  | .Invariant => 4
  | .Shape => 8

/-- The constant `NumTypePositionBits`. -/
def NumTypePositionBits : Nat := 4

/-- The class `GenericParameterReferenceInfo`: two 4-bit bit-fields and a
flag. -/
structure GenericParameterReferenceInfo where
  DirectRefs : Fin (2 ^ NumTypePositionBits)
  DepMemberTyRefs : Fin (2 ^ NumTypePositionBits)
  HasCovariantGenericParamResult : Bool
  deriving DecidableEq, Repr

namespace GenericParameterReferenceInfo

/-- The private constructor: the two `uint8_t` arguments are stored in the
4-bit fields, which keeps their low four bits. -/
def ctor (DirectRefs DepMemberTyRefs : Nat) (HasCovariantGenericParamResult : Bool) :
    GenericParameterReferenceInfo :=
  { DirectRefs := ⟨DirectRefs % 2 ^ NumTypePositionBits, Nat.mod_lt _ (by decide)⟩
    DepMemberTyRefs := ⟨DepMemberTyRefs % 2 ^ NumTypePositionBits, Nat.mod_lt _ (by decide)⟩
    HasCovariantGenericParamResult := HasCovariantGenericParamResult }

/-- The default constructor. -/
def default : GenericParameterReferenceInfo := ctor 0 0 false

/-- The factory `forDirectRef`. -/
def forDirectRef (pos : TypePosition) : GenericParameterReferenceInfo :=
  ctor pos.value 0 false

/-- The factory `forCovariantGenericParamResult`. -/
def forCovariantGenericParamResult : GenericParameterReferenceInfo :=
  ctor TypePosition.Covariant.value 0 true

/-- The factory `forDependentMemberTypeRef`. -/
def forDependentMemberTypeRef (pos : TypePosition) : GenericParameterReferenceInfo :=
  ctor 0 pos.value false

/-- The method `hasDirectRef`; `none` is the defaulted `std::nullopt`. -/
def hasDirectRef (info : GenericParameterReferenceInfo)
    (pos : Option TypePosition) : Bool :=
  match pos with
  | none => info.DirectRefs.val != 0
  | some p => info.DirectRefs.val &&& p.value != 0

/-- The method `hasDependentMemberTypeRef`. -/
def hasDependentMemberTypeRef (info : GenericParameterReferenceInfo)
    (pos : Option TypePosition) : Bool :=
  match pos with
  | none => info.DepMemberTyRefs.val != 0
  | some p => info.DepMemberTyRefs.val &&& p.value != 0

/-- The local constant `notCovariant`: the complement of the `Covariant`
flag, narrowed to `uint8_t`. -/
def notCovariant : Nat := (2 ^ 8 - 1 - TypePosition.Covariant.value) % 2 ^ 8

/-- The method `hasNonCovariantRef`. -/
def hasNonCovariantRef (info : GenericParameterReferenceInfo) : Bool :=
  (info.DirectRefs.val &&& notCovariant != 0) ||
    (info.DepMemberTyRefs.val &&& notCovariant != 0)

/-- The method `hasCovariantGenericParamResult`. -/
def hasCovariantGenericParamResult (info : GenericParameterReferenceInfo) : Bool :=
  info.HasCovariantGenericParamResult

/-- The conversion `operator bool`. -/
def toBool (info : GenericParameterReferenceInfo) : Bool :=
  info.hasDirectRef none || info.hasDependentMemberTypeRef none

end GenericParameterReferenceInfo

end OpenedExistentials

/-! ## Part II: theorems -/

namespace SILBridging

/-- C1: `BridgedValue::getOwnership` returns `Unowned`, `Owned`, `Guaranteed`
or `None` exactly when the value's ownership kind is that one, and it is fatal
exactly when the ownership kind is the wildcard `Any`. -/
theorem getOwnership_spec (v : ValueBase) :
    (BridgedValue.getOwnership v = .ret .Unowned ↔ v.ownershipKind = .Unowned) ∧
    (BridgedValue.getOwnership v = .ret .Owned ↔ v.ownershipKind = .Owned) ∧
    (BridgedValue.getOwnership v = .ret .Guaranteed ↔ v.ownershipKind = .Guaranteed) ∧
    (BridgedValue.getOwnership v = .ret .None ↔ v.ownershipKind = .None) ∧
    (BridgedValue.getOwnership v = .fatal ↔ v.ownershipKind = .Any) := by
  cases v with
  | mk ty k => cases k <;> simp [BridgedValue.getOwnership]

/-- C2: `getSelfArgumentIndex` is `-1` without a receiver parameter; with one it
is `getNumParameters + getNumIndirectFormalResults - 1`, which is the index of
the last argument. The counts are those of a signature that fits C `unsigned`
and whose receiver, when declared, is one of its parameters. -/
theorem getSelfArgumentIndex_spec (f : SILFunction)
    (hfit : f.loweredFunctionType.numParameters +
      f.loweredFunctionType.numIndirectFormalResults < 2 ^ unsignedBits)
    (hself : f.loweredFunctionType.hasSelfParam = true →
      0 < f.loweredFunctionType.numParameters) :
    (f.loweredFunctionType.hasSelfParam = false →
      BridgedFunction.getSelfArgumentIndex f = -1) ∧
    (f.loweredFunctionType.hasSelfParam = true →
      BridgedFunction.getSelfArgumentIndex f =
          BridgedFunction.getNumParameters f +
            BridgedFunction.getNumIndirectFormalResults f - 1 ∧
        BridgedFunction.getSelfArgumentIndex f =
          BridgedFunction.getNumSILArguments f - 1) := by
  obtain ⟨⟨hs, np, nr⟩, blocks⟩ := f
  simp only [unsignedBits] at hfit hself ⊢
  refine ⟨fun h => ?_, fun h => ?_⟩
  · simp only at h
    subst h
    simp [BridgedFunction.getSelfArgumentIndex]
  · simp only at h
    subst h
    have hp := hself rfl
    have h1 : np % 2 ^ 32 = np := Nat.mod_eq_of_lt (by omega)
    have h2 : nr % 2 ^ 32 = nr := Nat.mod_eq_of_lt (by omega)
    have h3 : (np + nr + (2 ^ 32 - 1)) % 2 ^ 32 = np + nr - 1 := by omega
    have h4 : (nr + np) % 2 ^ 32 = nr + np := Nat.mod_eq_of_lt (by omega)
    simp only [BridgedFunction.getSelfArgumentIndex, BridgedFunction.getNumParameters,
      BridgedFunction.getNumIndirectFormalResults, BridgedFunction.getNumSILArguments,
      SILFunctionConventions.getNumParameters, SILFunctionConventions.getNumIndirectSILResults,
      SILFunctionConventions.getNumSILArguments, unsignedBits, h1, h2, h3, h4]
    constructor <;> · simp; omega

/-- C2 at a method with two parameters, the receiver among them, and one
indirect result: the receiver is argument 2 of 3. -/
theorem getSelfArgumentIndex_spec_witness :
    BridgedFunction.getSelfArgumentIndex
        { loweredFunctionType :=
            { hasSelfParam := true, numParameters := 2, numIndirectFormalResults := 1 }
          blocks := [] } = 2 + 1 - 1 ∧
      BridgedFunction.getSelfArgumentIndex
        { loweredFunctionType :=
            { hasSelfParam := true, numParameters := 2, numIndirectFormalResults := 1 }
          blocks := [] } = 3 - 1 :=
  (getSelfArgumentIndex_spec
    { loweredFunctionType :=
        { hasSelfParam := true, numParameters := 2, numIndirectFormalResults := 1 }
      blocks := [] } (by decide) (by decide)).2 rfl

/-! ### Stepping through a sequence without repetition -/

/-- In a sequence without repetition the position of an element is its
index. -/
theorem indexOf_eq_of_getElem? {α : Type} [DecidableEq α] {l : List α} {x : α} {k : Nat}
    (hnd : l.Nodup) (hk : l[k]? = some x) : l.indexOf x = k := by
  obtain ⟨hlt, hx⟩ := List.getElem?_eq_some.mp hk
  subst hx
  exact List.indexOf_getElem hnd k hlt

/-- The step from the element at index `k` reaches the element at index
`k + 1`, if any. -/
theorem iterNext_eq {α : Type} [DecidableEq α] {l : List α} {x : α} {k : Nat}
    (hnd : l.Nodup) (hk : l[k]? = some x) : iterNext l x = l[k + 1]? := by
  unfold iterNext
  simp only [indexOf_eq_of_getElem? hnd hk]
  split
  · next h => rw [List.getElem?_eq_none (by omega)]
  · rfl

/-- The step from the element at index `k` is null exactly at the last
index. -/
theorem iterNext_eq_none_iff {α : Type} [DecidableEq α] {l : List α} {x : α} {k : Nat}
    (hnd : l.Nodup) (hk : l[k]? = some x) : iterNext l x = none ↔ k + 1 = l.length := by
  have hlt : k < l.length := (List.getElem?_eq_some.mp hk).1
  rw [iterNext_eq hnd hk, List.getElem?_eq_none_iff]
  omega

/-- Index `k` of a sequence is index `length - 1 - k` of its reverse. -/
theorem reverse_getElem?_of_getElem? {α : Type} {l : List α} {x : α} {k : Nat}
    (hk : l[k]? = some x) : l.reverse[l.length - 1 - k]? = some x := by
  have hlt : k < l.length := (List.getElem?_eq_some.mp hk).1
  rw [List.getElem?_reverse (by omega), ← hk]
  congr 1
  omega

/-- The step over the reverse order from the element at index `k` reaches the
element at index `k - 1`, if any. -/
theorem iterNext_reverse_eq {α : Type} [DecidableEq α] {l : List α} {x : α} {k : Nat}
    (hnd : l.Nodup) (hk : l[k]? = some x) :
    iterNext l.reverse x = if k = 0 then none else l[k - 1]? := by
  have hlt : k < l.length := (List.getElem?_eq_some.mp hk).1
  rw [iterNext_eq (List.nodup_reverse.mpr hnd) (reverse_getElem?_of_getElem? hk)]
  split
  · next h =>
    subst h
    rw [List.getElem?_eq_none (by simp; omega)]
  · next h =>
    rw [List.getElem?_reverse (by omega)]
    congr 1
    omega

/-- C6: for an instruction at index `k` of its block, `getNext` is the
instruction at index `k + 1`, null exactly when `k` is the last index, and
`getPrevious` is the instruction at index `k - 1`, null exactly when `k = 0`;
both are total. -/
theorem getNext_getPrevious_spec (m : SILModule) (inst : InstId) (k : Nat)
    (hnd : (m.block (m.instParent inst)).insts.Nodup)
    (hk : (m.block (m.instParent inst)).insts[k]? = some inst) :
    BridgedInstruction.getNext m inst = (m.block (m.instParent inst)).insts[k + 1]? ∧
    (BridgedInstruction.getNext m inst = none ↔
      k + 1 = (m.block (m.instParent inst)).insts.length) ∧
    BridgedInstruction.getPrevious m inst =
      (if k = 0 then none else (m.block (m.instParent inst)).insts[k - 1]?) ∧
    (BridgedInstruction.getPrevious m inst = none ↔ k = 0) := by
  have hlt : k < (m.block (m.instParent inst)).insts.length :=
    (List.getElem?_eq_some.mp hk).1
  refine ⟨iterNext_eq hnd hk, iterNext_eq_none_iff hnd hk, iterNext_reverse_eq hnd hk, ?_⟩
  unfold BridgedInstruction.getPrevious
  rw [iterNext_reverse_eq hnd hk]
  split
  · next h => simp [h]
  · next h =>
    simp only [h, iff_false]
    rw [List.getElem?_eq_getElem (by omega)]
    simp

/-- C6 at the middle instruction of a block of three. -/
theorem getNext_getPrevious_spec_witness :
    BridgedInstruction.getNext moduleOfThree 11 = some 12 ∧
    BridgedInstruction.getPrevious moduleOfThree 11 = some 10 :=
  have h := getNext_getPrevious_spec moduleOfThree 11 1 (by decide) (by decide)
  ⟨h.1, h.2.2.1⟩

/-- C10: `getFirstBlock` and `getLastBlock` are both null exactly when the
function has no blocks and otherwise are the first and the last block of its
order; likewise `getFirstInst` and `getLastInst` for the instructions of a
block. -/
theorem first_last_spec (f : SILFunction) (bb : SILBasicBlock) :
    (BridgedFunction.getFirstBlock f = none ↔ f.blocks = []) ∧
    (BridgedFunction.getLastBlock f = none ↔ f.blocks = []) ∧
    (∀ b rest, f.blocks = b :: rest → BridgedFunction.getFirstBlock f = some b) ∧
    (∀ b front, f.blocks = front ++ [b] → BridgedFunction.getLastBlock f = some b) ∧
    (BridgedBasicBlock.getFirstInst bb = none ↔ bb.insts = []) ∧
    (BridgedBasicBlock.getLastInst bb = none ↔ bb.insts = []) ∧
    (∀ i rest, bb.insts = i :: rest → BridgedBasicBlock.getFirstInst bb = some i) ∧
    (∀ i front, bb.insts = front ++ [i] → BridgedBasicBlock.getLastInst bb = some i) := by
  obtain ⟨fTy, blocks⟩ := f
  obtain ⟨insts, args⟩ := bb
  refine ⟨?_, ?_, ?_, ?_, ?_, ?_, ?_, ?_⟩
  · cases blocks <;> simp [BridgedFunction.getFirstBlock]
  · cases blocks <;> simp [BridgedFunction.getLastBlock, List.getLast?_eq_none_iff]
  · intro b rest h
    simp only at h
    subst h
    simp [BridgedFunction.getFirstBlock]
  · intro b front h
    simp only at h
    subst h
    simp [BridgedFunction.getLastBlock]
  · cases insts <;> simp [BridgedBasicBlock.getFirstInst]
  · cases insts <;> simp [BridgedBasicBlock.getLastInst, List.getLast?_eq_none_iff]
  · intro i rest h
    simp only at h
    subst h
    simp [BridgedBasicBlock.getFirstInst]
  · intro i front h
    simp only at h
    subst h
    simp [BridgedBasicBlock.getLastInst]

/-! ### Use-def consistency -/

/-- The values held after constructing an operand: the new operand holds `v`,
every other handle is as before. -/
theorem getValue_ctor (s : UseDef) (inst : InstId) (v : ValueId) (op : Operand) :
    BridgedOperand.getValue (Operand.ctor s inst v) op =
      if op = { user := inst, slot := (s.operands inst).length } then some v
      else BridgedOperand.getValue s op := by
  obtain ⟨u, k⟩ := op
  simp only [BridgedOperand.getValue, Operand.ctor, Function.update_apply, Operand.mk.injEq]
  by_cases hu : u = inst
  · subst hu
    simp only [if_true, true_and]
    by_cases hk : k = (s.operands u).length
    · subst hk
      simp
    · simp only [hk, if_false]
      rcases Nat.lt_or_gt_of_ne hk with hlt | hgt
      · rw [List.getElem?_append_left hlt]
      · rw [List.getElem?_eq_none (by simp; omega), List.getElem?_eq_none (by omega)]
  · simp [hu]

/-- The module without operands is use-def consistent. -/
theorem consistent_empty : UseDef.empty.Consistent := by
  constructor
  · intro v
    simp [UseDef.empty]
  · intro v op
    simp [UseDef.empty, BridgedOperand.getValue]

/-- Constructing an operand keeps use-def consistency. -/
theorem consistent_ctor {s : UseDef} (h : s.Consistent) (inst : InstId) (v : ValueId) :
    (Operand.ctor s inst v).Consistent := by
  obtain ⟨hnd, hmem⟩ := h
  have hfresh : ∀ w, ({ user := inst, slot := (s.operands inst).length } : Operand) ∉ s.uses w := by
    intro w hw
    have := (hmem w _).mp hw
    simp [BridgedOperand.getValue] at this
  constructor
  · intro w
    simp only [Operand.ctor, Function.update_apply]
    split
    · next hw =>
      subst hw
      exact List.nodup_cons.mpr ⟨hfresh _, hnd _⟩
    · exact hnd w
  · intro w op
    rw [getValue_ctor]
    simp only [Operand.ctor, Function.update_apply]
    by_cases ho : op = { user := inst, slot := (s.operands inst).length }
    · subst ho
      by_cases hw : w = v
      · subst hw
        simp
      · simp only [hw, if_false, if_true]
        constructor
        · intro hin
          exact absurd hin (hfresh w)
        · intro heq
          exact absurd (Option.some.inj heq).symm hw
    · simp only [ho, if_false]
      by_cases hw : w = v
      · subst hw
        simp only [if_true, List.mem_cons, ho, false_or]
        exact hmem w op
      · simp only [hw, if_false]
        exact hmem w op

/-- The values held after setting an operand of the module: that operand holds
the new value, every other handle is as before. -/
theorem getValue_set (s : UseDef) (op : Operand) (newValue old : ValueId)
    (hold : BridgedOperand.getValue s op = some old) (op' : Operand) :
    BridgedOperand.getValue (Operand.set s op newValue) op' =
      if op' = op then some newValue else BridgedOperand.getValue s op' := by
  obtain ⟨u, k⟩ := op
  obtain ⟨u', k'⟩ := op'
  simp only [BridgedOperand.getValue] at hold
  have hlt : k < (s.operands u).length := (List.getElem?_eq_some.mp hold).1
  simp only [BridgedOperand.getValue, Operand.set, hold, Function.update_apply,
    Operand.mk.injEq]
  by_cases hu : u' = u
  · subst hu
    simp only [if_true, true_and, List.getElem?_set]
    by_cases hk : k = k'
    · subst hk
      simp [hlt]
    · have hk' : ¬ k' = k := fun h => hk h.symm
      simp [hk, hk']
  · simp [hu]

/-- The use lists after setting an operand of the module that held `old`. -/
theorem uses_set (s : UseDef) (op : Operand) (newValue old : ValueId)
    (hold : BridgedOperand.getValue s op = some old) (w : ValueId) :
    (Operand.set s op newValue).uses w =
      if w = newValue then
        op :: (if newValue = old then (s.uses old).erase op else s.uses newValue)
      else if w = old then (s.uses old).erase op
      else s.uses w := by
  simp only [BridgedOperand.getValue] at hold
  simp only [Operand.set, hold, Function.update_apply]

/-- Setting an operand keeps use-def consistency. -/
theorem consistent_set {s : UseDef} (h : s.Consistent) (op : Operand) (newValue : ValueId) :
    (Operand.set s op newValue).Consistent := by
  cases hold : BridgedOperand.getValue s op with
  | none =>
    have : Operand.set s op newValue = s := by
      simp only [BridgedOperand.getValue] at hold
      simp only [Operand.set, hold]
    rw [this]
    exact h
  | some old =>
    obtain ⟨hnd, hmem⟩ := h
    have hin : op ∈ s.uses old := (hmem old op).mpr hold
    have hnotin : ∀ w, w ≠ old → op ∉ s.uses w := by
      intro w hw hc
      have := (hmem w op).mp hc
      rw [hold] at this
      exact hw (Option.some.inj this).symm
    constructor
    · intro w
      rw [uses_set s op newValue old hold]
      by_cases hw : w = newValue
      · subst hw
        simp only [if_true]
        by_cases hwo : w = old
        · subst hwo
          simp only [if_true]
          exact List.nodup_cons.mpr ⟨(hnd w).not_mem_erase, (hnd w).erase op⟩
        · simp only [hwo, if_false]
          exact List.nodup_cons.mpr ⟨hnotin w hwo, hnd w⟩
      · simp only [hw, if_false]
        split
        · exact (hnd old).erase op
        · exact hnd w
    · intro w op'
      rw [uses_set s op newValue old hold, getValue_set s op newValue old hold]
      by_cases ho : op' = op
      · subst ho
        simp only [if_true]
        by_cases hw : w = newValue
        · subst hw
          simp
        · simp only [hw, if_false]
          have hne : ¬ some newValue = some w := fun h => hw (Option.some.inj h).symm
          simp only [hne, iff_false]
          split
          · exact (hnd old).not_mem_erase
          · next hwo => exact hnotin w hwo
      · simp only [ho, if_false]
        by_cases hw : w = newValue
        · subst hw
          simp only [if_true, List.mem_cons, ho, false_or]
          by_cases hwo : w = old
          · subst hwo
            simp only [if_true]
            rw [(hnd w).mem_erase_iff]
            simp only [ne_eq, ho, not_false_eq_true, true_and]
            exact hmem w op'
          · simp only [hwo, if_false]
            exact hmem w op'
        · simp only [hw, if_false]
          split
          · next hwo =>
            subst hwo
            rw [(hnd w).mem_erase_iff]
            simp only [ne_eq, ho, not_false_eq_true, true_and]
            exact hmem w op'
          · exact hmem w op'

/-- Erasing an instruction keeps use-def consistency. -/
theorem consistent_erase {s : UseDef} (h : s.Consistent) (inst : InstId) :
    (PassContext_eraseInstruction s inst).Consistent := by
  obtain ⟨hnd, hmem⟩ := h
  constructor
  · intro v
    exact (hnd v).filter _
  · intro v op
    simp only [PassContext_eraseInstruction, BridgedOperand.getValue, Function.update_apply,
      List.mem_filter, bne_iff_ne, ne_eq]
    by_cases hu : op.user = inst
    · simp [hu]
    · simp only [hu, not_false_eq_true, and_true, if_false]
      exact hmem v op

/-- Every module built by the three primitives is use-def consistent. -/
theorem consistent_of_reachable {s : UseDef} (h : s.Reachable) : s.Consistent := by
  induction h with
  | empty => exact consistent_empty
  | ctor s inst v _ ih => exact consistent_ctor ih inst v
  | erase s inst _ ih => exact consistent_erase ih inst
  | setOperand s s' inst index value _ hset ih =>
    simp only [BridgedInstruction.setOperand, SILInstruction.setOperand] at hset
    split at hset
    · cases hset
      exact consistent_set ih _ _
    · cases hset

/-- With enough fuel, the traversal from the use at index `k` of a use list
visits the rest of the list from `k` on. -/
theorem useTraversal_drop {s : UseDef} (hc : s.Consistent) (v : ValueId) :
    ∀ (fuel k : Nat), (s.uses v).length - k ≤ fuel →
      useTraversal s fuel (s.uses v)[k]? = some ((s.uses v).drop k) := by
  intro fuel
  induction fuel with
  | zero =>
    intro k hk
    have hle : (s.uses v).length ≤ k := by omega
    rw [List.getElem?_eq_none hle, List.drop_eq_nil_of_le hle]
    rfl
  | succ fuel ih =>
    intro k hk
    by_cases hlt : k < (s.uses v).length
    · have hget : (s.uses v)[k]? = some (s.uses v)[k] := List.getElem?_eq_getElem hlt
      have hval : BridgedOperand.getValue s (s.uses v)[k] = some v :=
        (hc.2 v _).mp (List.getElem_mem hlt)
      have hnext : BridgedOperand.getNextUse s (s.uses v)[k] = (s.uses v)[k + 1]? := by
        simp only [BridgedOperand.getNextUse, hval]
        exact iterNext_eq (hc.1 v) hget
      rw [hget]
      simp only [useTraversal, hnext]
      rw [ih (k + 1) (by omega), List.drop_eq_getElem_cons hlt]
      rfl
    · have hle : (s.uses v).length ≤ k := by omega
      rw [List.getElem?_eq_none hle, List.drop_eq_nil_of_le hle]
      rfl

/-- With fuel for every use, the traversal from `getFirstUse` visits the use
list. -/
theorem useTraversal_getFirstUse {s : UseDef} (hc : s.Consistent) (v : ValueId)
    (fuel : Nat) (hfuel : numUses s v ≤ fuel) :
    useTraversal s fuel (BridgedValue.getFirstUse s v) = some (s.uses v) := by
  have h := useTraversal_drop hc v fuel 0 (by simpa [numUses] using hfuel)
  rw [List.drop_zero] at h
  rw [← h, BridgedValue.getFirstUse, List.head?_eq_getElem?]

/-- An operand of the module occurs once in the operand array of its user. -/
theorem count_getOperands (s : UseDef) (op : Operand) (v : ValueId)
    (hv : BridgedOperand.getValue s op = some v) :
    (BridgedInstruction.getOperands s (BridgedOperand.getUser op)).toList.count op = 1 := by
  obtain ⟨u, k⟩ := op
  have hlt : k < (s.operands u).length := (List.getElem?_eq_some.mp hv).1
  apply List.count_eq_one_of_mem
  · refine (List.nodup_range _).map ?_
    intro a b hab
    simpa [OptionalBridgedOperand.advancedBy] using hab
  · simp only [BridgedOperandArray.toList, BridgedInstruction.getOperands,
      BridgedOperand.getUser, List.mem_map, List.mem_range, Int.toNat_ofNat]
    exact ⟨k, hlt, by simp [OptionalBridgedOperand.advancedBy]⟩

/-- C5: use-def symmetry. In every module built by constructing operands and
by `setOperand`, the traversal from `v.getFirstUse()` along `getNextUse()`
terminates, visits only operands holding `v`, visits every operand holding `v`
exactly once, and each such operand occurs exactly once in the operand array
of its user; a value that no operand holds has a null `getFirstUse()`. -/
theorem use_def_symmetry (s : UseDef) (hr : s.Reachable) (v : ValueId) :
    ((∀ op, BridgedOperand.getValue s op ≠ some v) →
      BridgedValue.getFirstUse s v = none) ∧
    ∃ visited : List Operand,
      (∀ fuel, numUses s v ≤ fuel →
        useTraversal s fuel (BridgedValue.getFirstUse s v) = some visited) ∧
      (∀ op ∈ visited, BridgedOperand.getValue s op = some v) ∧
      ∀ op, BridgedOperand.getValue s op = some v →
        visited.count op = 1 ∧
        (BridgedInstruction.getOperands s (BridgedOperand.getUser op)).toList.count op = 1 := by
  have hc := consistent_of_reachable hr
  refine ⟨fun hno => ?_, s.uses v, ?_, ?_, ?_⟩
  · cases huses : s.uses v with
    | nil => simp [BridgedValue.getFirstUse, huses]
    | cons op rest =>
      have hin : op ∈ s.uses v := by simp [huses]
      exact absurd ((hc.2 v op).mp hin) (hno op)
  · exact fun fuel hfuel => useTraversal_getFirstUse hc v fuel hfuel
  · exact fun op hop => (hc.2 v op).mp hop
  · intro op hop
    exact ⟨List.count_eq_one_of_mem (hc.1 v) ((hc.2 v op).mpr hop),
      count_getOperands s op v hop⟩

/-- C5 at value 5 of a module with three operands: the traversal visits the two
operands holding 5. -/
theorem use_def_symmetry_witness :
    useTraversal threeOperands 2 (BridgedValue.getFirstUse threeOperands 5) =
        some [{ user := 1, slot := 0 }, { user := 0, slot := 0 }] ∧
    ∃ visited : List Operand,
      (∀ fuel, numUses threeOperands 5 ≤ fuel →
        useTraversal threeOperands fuel (BridgedValue.getFirstUse threeOperands 5) =
          some visited) ∧
      (∀ op ∈ visited, BridgedOperand.getValue threeOperands op = some 5) ∧
      ∀ op, BridgedOperand.getValue threeOperands op = some 5 →
        visited.count op = 1 ∧
        (BridgedInstruction.getOperands threeOperands
          (BridgedOperand.getUser op)).toList.count op = 1 :=
  ⟨by decide,
    (use_def_symmetry threeOperands
      (.ctor _ 1 6 (.ctor _ 1 5 (.ctor _ 0 5 .empty))) 5).2⟩

/-- An index inside the operand array of at most `2 ^ 32` operands converts to
itself. -/
theorem toUnsigned_of_inRange (i : Int) (n : Nat) (hn : n ≤ 2 ^ unsignedBits)
    (h0 : 0 ≤ i) (hlt : i < n) : toUnsigned i = i.toNat := by
  simp only [toUnsigned, unsignedBits] at *
  have h : i % ((2 ^ 32 : Nat) : Int) = i := Int.emod_eq_of_lt h0 (by omega)
  rw [h]

/-- C3: in a module built by constructing operands and by `setOperand`, for a
valid slot `i` of an instruction holding `v1` and a value `v2` other than
`v1`, `setOperand(i, v2)` returns; afterwards `v1` has one use less, `v2` one
use more, slot `i` holds `v2`, the operand count is unchanged and every other
operand holds the value it held before. -/
theorem setOperand_spec (s : UseDef) (hr : s.Reachable) (inst : InstId) (i : Int)
    (v1 v2 : ValueId)
    (hfit : (BridgedInstruction.getOperands s inst).count ≤ 2 ^ unsignedBits)
    (hi0 : 0 ≤ i) (hin : i < (BridgedInstruction.getOperands s inst).count)
    (hv1 : BridgedOperand.getValue s
      (OptionalBridgedOperand.advancedBy (BridgedInstruction.getOperands s inst).base i.toNat)
        = some v1)
    (hne : v2 ≠ v1) :
    ∃ s', BridgedInstruction.setOperand s inst i v2 = .ret s' ∧
      numUses s' v1 + 1 = numUses s v1 ∧
      numUses s' v2 = numUses s v2 + 1 ∧
      BridgedOperand.getValue s'
        (OptionalBridgedOperand.advancedBy (BridgedInstruction.getOperands s' inst).base
          i.toNat) = some v2 ∧
      (BridgedInstruction.getOperands s' inst).count =
        (BridgedInstruction.getOperands s inst).count ∧
      ∀ op, op ≠ OptionalBridgedOperand.advancedBy
          (BridgedInstruction.getOperands s inst).base i.toNat →
        BridgedOperand.getValue s' op = BridgedOperand.getValue s op := by
  have hc := consistent_of_reachable hr
  simp only [BridgedInstruction.getOperands, OptionalBridgedOperand.advancedBy,
    Nat.zero_add] at hfit hin hv1 ⊢
  have hu : toUnsigned i = i.toNat :=
    toUnsigned_of_inRange i (s.operands inst).length (by exact_mod_cast hfit) hi0 hin
  have hlt : i.toNat < (s.operands inst).length := by omega
  refine ⟨Operand.set s { user := inst, slot := i.toNat } v2, ?_, ?_, ?_, ?_, ?_, ?_⟩
  · simp [BridgedInstruction.setOperand, SILInstruction.setOperand, hu, hlt]
  · have hmem : ({ user := inst, slot := i.toNat } : Operand) ∈ s.uses v1 :=
      (hc.2 v1 _).mpr hv1
    have hpos : 0 < (s.uses v1).length := List.length_pos_of_mem hmem
    simp only [numUses, uses_set s _ v2 v1 hv1, hne.symm, if_false, if_true,
      List.length_erase_of_mem hmem]
    omega
  · simp only [numUses, uses_set s _ v2 v1 hv1, hne, if_false, if_true, List.length_cons]
  · rw [getValue_set s _ v2 v1 hv1]
    simp
  · simp only [BridgedOperand.getValue] at hv1
    simp [Operand.set, hv1]
  · intro op hop
    rw [getValue_set s _ v2 v1 hv1]
    simp [hop]

/-- C3 at slot 1 of an instruction holding 5 and 6, set to 5: value 6 loses its
use and value 5 gains one. -/
theorem setOperand_spec_witness :
    ∃ s', BridgedInstruction.setOperand twoOperands 0 1 5 = .ret s' ∧
      numUses s' 6 + 1 = numUses twoOperands 6 ∧
      numUses s' 5 = numUses twoOperands 5 + 1 ∧
      BridgedOperand.getValue s'
        (OptionalBridgedOperand.advancedBy (BridgedInstruction.getOperands s' 0).base
          (1 : Int).toNat) = some 5 ∧
      (BridgedInstruction.getOperands s' 0).count =
        (BridgedInstruction.getOperands twoOperands 0).count ∧
      ∀ op, op ≠ OptionalBridgedOperand.advancedBy
          (BridgedInstruction.getOperands twoOperands 0).base (1 : Int).toNat →
        BridgedOperand.getValue s' op = BridgedOperand.getValue twoOperands op :=
  setOperand_spec twoOperands (.ctor _ 0 6 (.ctor _ 0 5 .empty)) 0 1 6 5
    (by decide) (by decide) (by decide) (by decide) (by decide)

/-- C4, as the code has it: `setOperand(i, v)` is fatal exactly when the index
converted to `unsigned` is no slot of the instruction; in particular for
`n <= i < 2 ^ 32` and for `-(2 ^ 32) + n <= i < 0`, where `n` is the operand
count. -/
theorem setOperand_fatal_iff (s : UseDef) (inst : InstId) (i : Int) (v : ValueId) :
    (BridgedInstruction.setOperand s inst i v = .fatal ↔
      (BridgedInstruction.getOperands s inst).count ≤ (toUnsigned i : Int)) ∧
    ((BridgedInstruction.getOperands s inst).count ≤ i → i < 2 ^ unsignedBits →
      BridgedInstruction.setOperand s inst i v = .fatal) ∧
    (-(2 ^ unsignedBits) + (BridgedInstruction.getOperands s inst).count ≤ i → i < 0 →
      BridgedInstruction.setOperand s inst i v = .fatal) := by
  have key : BridgedInstruction.setOperand s inst i v = .fatal ↔
      (BridgedInstruction.getOperands s inst).count ≤ (toUnsigned i : Int) := by
    simp only [BridgedInstruction.setOperand, SILInstruction.setOperand,
      BridgedInstruction.getOperands]
    split
    · next h =>
      simp only [reduceCtorEq, false_iff]
      omega
    · next h =>
      simp only [true_iff]
      omega
  refine ⟨key, fun h1 h2 => key.mpr ?_, fun h1 h2 => key.mpr ?_⟩
  · simp only [BridgedInstruction.getOperands, toUnsigned, unsignedBits] at *
    have h0 : 0 ≤ i := le_trans (Int.ofNat_nonneg _) h1
    have h : i % ((2 ^ 32 : Nat) : Int) = i := Int.emod_eq_of_lt h0 (by omega)
    rw [h]
    omega
  · simp only [BridgedInstruction.getOperands, toUnsigned, unsignedBits] at *
    have h : i % ((2 ^ 32 : Nat) : Int) = i + 2 ^ 32 := by omega
    rw [h]
    omega

/-- C4 fails as stated: index `2 ^ 32` is outside `0 <= i < 1`, yet
`setOperand(2 ^ 32, 7)` on an instruction with one operand is not fatal; it
sets slot 0, which held 5, to 7. -/
theorem setOperand_index_wraps :
    ¬ ((2 ^ 32 : Int) < (BridgedInstruction.getOperands oneOperand 0).count) ∧
    BridgedOperand.getValue oneOperand { user := 0, slot := 0 } = some 5 ∧
    BridgedInstruction.setOperand oneOperand 0 (2 ^ 32) 7 ≠ .fatal ∧
    ∃ s', BridgedInstruction.setOperand oneOperand 0 (2 ^ 32) 7 = .ret s' ∧
      BridgedOperand.getValue s' { user := 0, slot := 0 } = some 7 := by
  refine ⟨by decide, by decide, ?_, Operand.set oneOperand { user := 0, slot := 0 } 7, ?_, ?_⟩
  · simp [BridgedInstruction.setOperand, SILInstruction.setOperand, toUnsigned, unsignedBits,
      oneOperand, Operand.ctor, UseDef.empty]
  · simp [BridgedInstruction.setOperand, SILInstruction.setOperand, toUnsigned, unsignedBits,
      oneOperand, Operand.ctor, UseDef.empty]
  · decide

/-- C9: `addBlockArgument(t, o)` returns an argument appended as the last
element of the argument list of the block: the count grows by one, the earlier
arguments keep their indices, the instructions are untouched, the type of the
argument is `t` and its ownership is `o`; `getOwnership` of a value created
with `castToOwnership(o)` returns `o` and is never fatal. -/
theorem addBlockArgument_spec (bb : SILBasicBlock) (t : SILType) (o : Ownership) :
    (BridgedBasicBlock.addBlockArgument bb t o).1.args =
      bb.args ++ [(BridgedBasicBlock.addBlockArgument bb t o).2] ∧
    BridgedBasicBlock.getNumArguments (BridgedBasicBlock.addBlockArgument bb t o).1 =
      BridgedBasicBlock.getNumArguments bb + 1 ∧
    (∀ i : Nat, i < bb.args.length →
      (BridgedBasicBlock.addBlockArgument bb t o).1.args[i]? = bb.args[i]?) ∧
    (BridgedBasicBlock.addBlockArgument bb t o).1.args[bb.args.length]? =
      some (BridgedBasicBlock.addBlockArgument bb t o).2 ∧
    (BridgedBasicBlock.addBlockArgument bb t o).1.insts = bb.insts ∧
    BridgedValue.getType (BridgedBasicBlock.addBlockArgument bb t o).2 = t ∧
    BridgedValue.getOwnership (BridgedBasicBlock.addBlockArgument bb t o).2 = .ret o ∧
    (∀ (ty : SILType) (o' : Ownership),
      BridgedValue.getOwnership { type := ty, ownershipKind := castToOwnership o' } =
        .ret o') := by
  have hown : ∀ (ty : SILType) (o' : Ownership),
      BridgedValue.getOwnership { type := ty, ownershipKind := castToOwnership o' } =
        .ret o' := by
    intro ty o'
    cases o' <;> rfl
  refine ⟨rfl, ?_, ?_, ?_, rfl, rfl, hown t o, hown⟩
  · simp [BridgedBasicBlock.addBlockArgument, SILBasicBlock.createPhiArgument,
      BridgedBasicBlock.getNumArguments]
  · intro i hi
    simp only [BridgedBasicBlock.addBlockArgument, SILBasicBlock.createPhiArgument]
    rw [List.getElem?_append_left hi]
  · simp [BridgedBasicBlock.addBlockArgument, SILBasicBlock.createPhiArgument]

/-- Every accessor of the form `getAs<I>()->field` is a checked accessor. -/
theorem checkedAccessor_getAs_map {α : Type} (I : InstClass) (read : SILInstruction → α) :
    CheckedAccessor I (fun inst => (BridgedInstruction.getAs I inst).map read) read := by
  intro inst
  constructor <;> intro h <;> simp [BridgedInstruction.getAs, h, Outcome.map]

/-- C7: each kind-specific accessor, and any accessor that reads a field
through `getAs<I>`, is fatal on an instruction that is not of the class it
casts to, and returns the payload of an instruction that is; an instruction is
of a single-kind class exactly when it has that kind, and of class
`FunctionRefBaseInst` exactly when it has one of its three sub-kinds. -/
theorem kind_specific_accessors_checked :
    (∀ (I : InstClass) (read : SILInstruction → Int),
      CheckedAccessor I (fun inst => (BridgedInstruction.getAs I inst).map read) read) ∧
    (∀ kind k : SILInstructionKind, (InstClass.final kind).classof k = true ↔ k = kind) ∧
    (∀ k : SILInstructionKind, InstClass.FunctionRefBaseInst.classof k = true ↔
      k = .FunctionRefInst ∨ k = .DynamicFunctionRefInst ∨
        k = .PreviousDynamicFunctionRefInst) ∧
    CheckedAccessor .FunctionRefBaseInst
      BridgedInstruction.FunctionRefBaseInst_getReferencedFunction
      (fun i => i.referencedFunction) ∧
    CheckedAccessor (.final .IntegerLiteralInst)
      BridgedInstruction.IntegerLiteralInst_getValue (fun i => i.value) ∧
    CheckedAccessor (.final .TupleExtractInst)
      BridgedInstruction.TupleExtractInst_fieldIndex (fun i => (i.fieldIndex : Int)) ∧
    CheckedAccessor (.final .TupleElementAddrInst)
      BridgedInstruction.TupleElementAddrInst_fieldIndex (fun i => (i.fieldIndex : Int)) ∧
    CheckedAccessor (.final .StructExtractInst)
      BridgedInstruction.StructExtractInst_fieldIndex (fun i => (i.fieldIndex : Int)) ∧
    CheckedAccessor (.final .StructInst)
      BridgedInstruction.StructInst_getUniqueNonTrivialFieldValue
      (fun i => i.uniqueNonTrivialFieldValue) ∧
    CheckedAccessor (.final .StructElementAddrInst)
      BridgedInstruction.StructElementAddrInst_fieldIndex (fun i => (i.fieldIndex : Int)) ∧
    CheckedAccessor (.final .ProjectBoxInst)
      BridgedInstruction.ProjectBoxInst_fieldIndex (fun i => (i.fieldIndex : Int)) ∧
    CheckedAccessor (.final .EnumInst)
      BridgedInstruction.EnumInst_caseIndex (fun i => (i.caseIndex : Int)) ∧
    CheckedAccessor (.final .UncheckedEnumDataInst)
      BridgedInstruction.UncheckedEnumDataInst_caseIndex (fun i => (i.caseIndex : Int)) ∧
    CheckedAccessor (.final .InitEnumDataAddrInst)
      BridgedInstruction.InitEnumDataAddrInst_caseIndex (fun i => (i.caseIndex : Int)) ∧
    CheckedAccessor (.final .UncheckedTakeEnumDataAddrInst)
      BridgedInstruction.UncheckedTakeEnumDataAddrInst_caseIndex
      (fun i => (i.caseIndex : Int)) ∧
    CheckedAccessor (.final .InjectEnumAddrInst)
      BridgedInstruction.InjectEnumAddrInst_caseIndex (fun i => (i.caseIndex : Int)) ∧
    CheckedAccessor (.final .RefElementAddrInst)
      BridgedInstruction.RefElementAddrInst_fieldIndex (fun i => (i.fieldIndex : Int)) ∧
    CheckedAccessor (.final .RefElementAddrInst)
      BridgedInstruction.RefElementAddrInst_fieldIsLet
      (fun i => if i.fieldIsLet then 1 else 0) ∧
    CheckedAccessor (.final .PartialApplyInst)
      BridgedInstruction.PartialApplyInst_numArguments (fun i => (i.numArguments : Int)) ∧
    CheckedAccessor (.final .ApplyInst)
      BridgedInstruction.ApplyInst_numArguments (fun i => (i.numArguments : Int)) ∧
    CheckedAccessor (.final .CondBranchInst)
      BridgedInstruction.CondBranchInst_getNumTrueArgs (fun i => (i.numTrueArgs : Int)) := by
  refine ⟨fun I read => checkedAccessor_getAs_map I read, ?_, ?_,
    checkedAccessor_getAs_map _ _, checkedAccessor_getAs_map _ _,
    checkedAccessor_getAs_map _ _,
    checkedAccessor_getAs_map _ _, checkedAccessor_getAs_map _ _,
    checkedAccessor_getAs_map _ _, checkedAccessor_getAs_map _ _,
    checkedAccessor_getAs_map _ _, checkedAccessor_getAs_map _ _,
    checkedAccessor_getAs_map _ _, checkedAccessor_getAs_map _ _,
    checkedAccessor_getAs_map _ _, checkedAccessor_getAs_map _ _,
    checkedAccessor_getAs_map _ _, checkedAccessor_getAs_map _ _,
    checkedAccessor_getAs_map _ _, checkedAccessor_getAs_map _ _,
    checkedAccessor_getAs_map _ _⟩
  · intro kind k
    simp [InstClass.classof]
  · intro k
    simp [InstClass.classof, or_assoc]

/-! ### Mutual inverse of `getNext` and `getPrevious` -/

/-- With enough fuel, the forward traversal from the node at index `k` of a
sequence without repetition visits the rest of the sequence from `k` on. -/
theorem followNext_drop {α : Type} [DecidableEq α] (next : α → Option α) (l : List α)
    (hnd : l.Nodup) (hnext : ∀ x ∈ l, next x = iterNext l x) :
    ∀ (fuel k : Nat), l.length - k ≤ fuel →
      followNext next fuel l[k]? = some (l.drop k) := by
  intro fuel
  induction fuel with
  | zero =>
    intro k hk
    have hle : l.length ≤ k := by omega
    rw [List.getElem?_eq_none hle, List.drop_eq_nil_of_le hle]
    rfl
  | succ fuel ih =>
    intro k hk
    by_cases hlt : k < l.length
    · have hget : l[k]? = some l[k] := List.getElem?_eq_getElem hlt
      have hstep : next l[k] = l[k + 1]? := by
        rw [hnext _ (List.getElem_mem hlt)]
        exact iterNext_eq hnd hget
      rw [hget]
      simp only [followNext, hstep]
      rw [ih (k + 1) (by omega), List.drop_eq_getElem_cons hlt]
      rfl
    · have hle : l.length ≤ k := by omega
      rw [List.getElem?_eq_none hle, List.drop_eq_nil_of_le hle]
      rfl

/-- In a sequence without repetition, the step over the reverse order undoes
the step over the order. -/
theorem iterNext_reverse_of_iterNext {α : Type} [DecidableEq α] {l : List α} {x y : α}
    (hnd : l.Nodup) (hx : x ∈ l) (h : iterNext l x = some y) :
    y ∈ l ∧ iterNext l.reverse y = some x := by
  obtain ⟨k, hlt, hk⟩ := List.getElem_of_mem hx
  have hget : l[k]? = some x := by rw [List.getElem?_eq_getElem hlt, hk]
  rw [iterNext_eq hnd hget] at h
  refine ⟨List.getElem?_mem h, ?_⟩
  rw [iterNext_reverse_eq hnd h]
  simpa using hget

/-- In a sequence without repetition, the step over the order undoes the step
over the reverse order. -/
theorem iterNext_of_iterNext_reverse {α : Type} [DecidableEq α] {l : List α} {x y : α}
    (hnd : l.Nodup) (hx : x ∈ l) (h : iterNext l.reverse x = some y) :
    y ∈ l ∧ iterNext l y = some x := by
  have h1 := iterNext_reverse_of_iterNext (List.nodup_reverse.mpr hnd)
    (List.mem_reverse.mpr hx) h
  rw [List.reverse_reverse] at h1
  exact ⟨List.mem_reverse.mp h1.1, h1.2⟩

/-- The forward traversal of a sequence without repetition from its head
visits the sequence. -/
theorem followNext_head {α : Type} [DecidableEq α] (next : α → Option α) (l : List α)
    (hnd : l.Nodup) (hnext : ∀ x ∈ l, next x = iterNext l x) (fuel : Nat)
    (hfuel : l.length ≤ fuel) : followNext next fuel l.head? = some l := by
  have h := followNext_drop next l hnd hnext fuel 0 (by omega)
  rw [List.drop_zero] at h
  rw [← h, List.head?_eq_getElem?]

/-- C17: in a well-formed module `getNext` and `getPrevious` are mutually
inverse on the instructions of a block; following `getNext` from
`getFirstInst()` terminates and visits the instructions of the block in order,
each exactly once, ending at `getLastInst()`. The same holds for the blocks of
a function between `getFirstBlock()` and `getLastBlock()`. -/
theorem getNext_getPrevious_inverse (m : SILModule) (hwf : m.WellFormed)
    (b : BlockId) (f : FuncId) :
    (∀ i ∈ (m.block b).insts, ∀ n, BridgedInstruction.getNext m i = some n →
      BridgedInstruction.getPrevious m n = some i) ∧
    (∀ i ∈ (m.block b).insts, ∀ p, BridgedInstruction.getPrevious m i = some p →
      BridgedInstruction.getNext m p = some i) ∧
    (∀ fuel, (m.block b).insts.length ≤ fuel →
      followNext (BridgedInstruction.getNext m) fuel
        (BridgedBasicBlock.getFirstInst (m.block b)) = some (m.block b).insts) ∧
    (∀ i ∈ (m.block b).insts, (m.block b).insts.count i = 1) ∧
    (m.block b).insts.getLast? = BridgedBasicBlock.getLastInst (m.block b) ∧
    (∀ x ∈ (m.function f).blocks, ∀ n, BridgedBasicBlock.getNext m x = some n →
      BridgedBasicBlock.getPrevious m n = some x) ∧
    (∀ x ∈ (m.function f).blocks, ∀ p, BridgedBasicBlock.getPrevious m x = some p →
      BridgedBasicBlock.getNext m p = some x) ∧
    (∀ fuel, (m.function f).blocks.length ≤ fuel →
      followNext (BridgedBasicBlock.getNext m) fuel
        (BridgedFunction.getFirstBlock (m.function f)) = some (m.function f).blocks) ∧
    (∀ x ∈ (m.function f).blocks, (m.function f).blocks.count x = 1) ∧
    (m.function f).blocks.getLast? = BridgedFunction.getLastBlock (m.function f) := by
  obtain ⟨hnd, hpar, hbnd, hbpar⟩ := hwf
  have hfirst : BridgedBasicBlock.getFirstInst (m.block b) = (m.block b).insts.head? := by
    unfold BridgedBasicBlock.getFirstInst
    cases (m.block b).insts <;> simp
  have hfirstB : BridgedFunction.getFirstBlock (m.function f) =
      (m.function f).blocks.head? := by
    unfold BridgedFunction.getFirstBlock
    cases (m.function f).blocks <;> simp
  refine ⟨?_, ?_, ?_, ?_, ?_, ?_, ?_, ?_, ?_, ?_⟩
  · intro i hi n hn
    simp only [BridgedInstruction.getNext, hpar b i hi] at hn
    obtain ⟨hmem, hrev⟩ := iterNext_reverse_of_iterNext (hnd b) hi hn
    simp only [BridgedInstruction.getPrevious, hpar b n hmem]
    exact hrev
  · intro i hi p hp
    simp only [BridgedInstruction.getPrevious, hpar b i hi] at hp
    obtain ⟨hmem, hfwd⟩ := iterNext_of_iterNext_reverse (hnd b) hi hp
    simp only [BridgedInstruction.getNext, hpar b p hmem]
    exact hfwd
  · intro fuel hfuel
    rw [hfirst]
    refine followNext_head _ _ (hnd b) ?_ fuel hfuel
    intro x hx
    simp only [BridgedInstruction.getNext, hpar b x hx]
  · exact fun i hi => List.count_eq_one_of_mem (hnd b) hi
  · unfold BridgedBasicBlock.getLastInst
    cases (m.block b).insts <;> simp
  · intro x hx n hn
    simp only [BridgedBasicBlock.getNext, hbpar f x hx] at hn
    obtain ⟨hmem, hrev⟩ := iterNext_reverse_of_iterNext (hbnd f) hx hn
    simp only [BridgedBasicBlock.getPrevious, hbpar f n hmem]
    exact hrev
  · intro x hx p hp
    simp only [BridgedBasicBlock.getPrevious, hbpar f x hx] at hp
    obtain ⟨hmem, hfwd⟩ := iterNext_of_iterNext_reverse (hbnd f) hx hp
    simp only [BridgedBasicBlock.getNext, hbpar f p hmem]
    exact hfwd
  · intro fuel hfuel
    rw [hfirstB]
    refine followNext_head _ _ (hbnd f) ?_ fuel hfuel
    intro x hx
    simp only [BridgedBasicBlock.getNext, hbpar f x hx]
  · exact fun x hx => List.count_eq_one_of_mem (hbnd f) hx
  · unfold BridgedFunction.getLastBlock
    cases (m.function f).blocks <;> simp

/-- The module of two blocks is well formed. -/
theorem wellFormed_moduleOfTwoBlocks : moduleOfTwoBlocks.WellFormed := by
  refine ⟨?_, ?_, ?_, ?_⟩
  · intro b
    simp only [moduleOfTwoBlocks]
    split
    · decide
    · split <;> decide
  · intro b i hi
    simp only [moduleOfTwoBlocks] at hi ⊢
    split at hi
    · next hb =>
      subst hb
      have : i ≠ 20 := by
        intro h
        subst h
        simp at hi
      simp [this]
    · split at hi
      · next hb =>
        subst hb
        simp at hi
        simp [hi]
      · simp at hi
  · intro f
    simp only [moduleOfTwoBlocks]
    split <;> decide
  · intro f b hb
    simp only [moduleOfTwoBlocks] at hb ⊢
    split at hb
    · next hf => exact hf.symm
    · simp at hb

/-- C17 at block 0 of the module of two blocks: the step from 11 reaches 12 and
the step back from 12 reaches 11, and the traversals visit `10, 11, 12, 13` and
the blocks `0, 1`. -/
theorem getNext_getPrevious_inverse_witness :
    BridgedInstruction.getNext moduleOfTwoBlocks 11 = some 12 ∧
    BridgedInstruction.getPrevious moduleOfTwoBlocks 12 = some 11 ∧
    followNext (BridgedInstruction.getNext moduleOfTwoBlocks) 4
      (BridgedBasicBlock.getFirstInst (moduleOfTwoBlocks.block 0)) = some [10, 11, 12, 13] ∧
    followNext (BridgedBasicBlock.getNext moduleOfTwoBlocks) 2
      (BridgedFunction.getFirstBlock (moduleOfTwoBlocks.function 0)) = some [0, 1] :=
  have h := getNext_getPrevious_inverse moduleOfTwoBlocks wellFormed_moduleOfTwoBlocks 0 0
  ⟨by decide, h.1 11 (by decide) 12 (by decide), h.2.2.1 4 (by decide),
    h.2.2.2.2.2.2.2.1 2 (by decide)⟩

/-! ### Switch on enum and key paths -/

/-- An index that is nonnegative and below `2 ^ 32` converts to itself. -/
theorem toUnsigned_of_lt (i : Int) (h0 : 0 ≤ i) (hlt : i < 2 ^ unsignedBits) :
    toUnsigned i = i.toNat := by
  simp only [toUnsigned, unsignedBits] at *
  have h : i % ((2 ^ 32 : Nat) : Int) = i := Int.emod_eq_of_lt h0 (by omega)
  rw [h]

/-- C13: for a case position `idx` with `0 <= idx < SwitchEnumInst_getNumCases()`,
`SwitchEnumInst_getCaseIndex(idx)` returns the index that the case-index
mapping of the module assigns to the enum element of the case at `idx`; two
positions with the same element give the same result, and the result need not
equal the position. -/
theorem SwitchEnumInst_getCaseIndex_spec (getCaseIndex : EnumElementDecl → Nat)
    (seInst : SwitchEnumInst) (idx n : Int)
    (hn : BridgedInstruction.SwitchEnumInst_getNumCases (.isa seInst) = .ret n)
    (h0 : 0 ≤ idx) (hlt : idx < n) :
    (∃ theCase, seInst.cases[idx.toNat]? = some theCase ∧
      BridgedInstruction.SwitchEnumInst_getCaseIndex getCaseIndex (.isa seInst) idx =
        .ret ((getCaseIndex theCase.1 : Nat) : Int)) ∧
    (∀ (seInst2 : SwitchEnumInst) (idx2 : Int), 0 ≤ idx2 → idx2 < 2 ^ unsignedBits →
      (seInst2.cases[idx2.toNat]?).map Prod.fst = (seInst.cases[idx.toNat]?).map Prod.fst →
      BridgedInstruction.SwitchEnumInst_getCaseIndex getCaseIndex (.isa seInst2) idx2 =
        BridgedInstruction.SwitchEnumInst_getCaseIndex getCaseIndex (.isa seInst) idx) ∧
    (∃ (seInst3 : SwitchEnumInst) (r : Int),
      BridgedInstruction.SwitchEnumInst_getCaseIndex (fun e => e) (.isa seInst3) 0 = .ret r ∧
        r ≠ 0) := by
  simp only [BridgedInstruction.SwitchEnumInst_getNumCases, BridgedInstruction.getAsClass,
    Outcome.map, Outcome.ret.injEq] at hn
  have hmod : seInst.cases.length % 2 ^ unsignedBits ≤ seInst.cases.length :=
    Nat.mod_le _ _
  have hmodlt : seInst.cases.length % 2 ^ unsignedBits < 2 ^ unsignedBits :=
    Nat.mod_lt _ (by decide)
  have hidx : idx < 2 ^ unsignedBits := by
    have : (((seInst.cases.length % 2 ^ unsignedBits : Nat) : Int)) <
        ((2 ^ unsignedBits : Nat) : Int) := by exact_mod_cast hmodlt
    have h2 : ((2 ^ unsignedBits : Nat) : Int) = 2 ^ unsignedBits := by norm_cast
    omega
  have hu : toUnsigned idx = idx.toNat := toUnsigned_of_lt idx h0 hidx
  have hin : idx.toNat < seInst.cases.length := by omega
  have hget : seInst.cases[idx.toNat]? = some seInst.cases[idx.toNat] :=
    List.getElem?_eq_getElem hin
  have hres : BridgedInstruction.SwitchEnumInst_getCaseIndex getCaseIndex (.isa seInst) idx =
      .ret ((getCaseIndex seInst.cases[idx.toNat].1 : Nat) : Int) := by
    simp only [BridgedInstruction.SwitchEnumInst_getCaseIndex, BridgedInstruction.getAsClass,
      hu, hget]
  refine ⟨⟨_, hget, hres⟩, ?_, ⟨{ cases := [(7, 0), (3, 1)] }, 7, by decide, by decide⟩⟩
  intro seInst2 idx2 h02 hlt2 hsame
  have hu2 : toUnsigned idx2 = idx2.toNat := toUnsigned_of_lt idx2 h02 hlt2
  rw [hres]
  rw [hget] at hsame
  simp only [BridgedInstruction.SwitchEnumInst_getCaseIndex, BridgedInstruction.getAsClass, hu2]
  cases hc : seInst2.cases[idx2.toNat]? with
  | none => simp [hc] at hsame
  | some c2 =>
    simp only [hc, Option.map_some', Option.some.injEq] at hsame
    simp only [hsame]

/-- C13 at a switch whose cases are the elements 7 and 3, under a mapping that
sends element `e` to `e + 1`: position 1 yields 4. -/
theorem SwitchEnumInst_getCaseIndex_spec_witness :
    BridgedInstruction.SwitchEnumInst_getCaseIndex (fun e => e + 1)
      (.isa { cases := [(7, 0), (3, 1)] }) 1 = .ret 4 :=
  have h := (SwitchEnumInst_getCaseIndex_spec (fun e => e + 1)
    { cases := [(7, 0), (3, 1)] } 1 2 (by decide) (by decide) (by decide)).1
  by
    obtain ⟨theCase, hc, hr⟩ := h
    have : theCase = (3, 1) := by
      have h2 : ([(7, 0), (3, 1)] : List (EnumElementDecl × BlockId))[(1 : Int).toNat]? =
          some (3, 1) := by decide
      rw [h2] at hc
      exact (Option.some.inj hc).symm
    rw [hr, this]
    rfl

/-- Storing at index `n` and taking `n + 1` elements appends the stored
element to the first `n`. -/
theorem take_succ_set {α : Type} (l : List α) (n : Nat) (a : α) (hn : n < l.length) :
    (l.set n a).take (n + 1) = l.take n ++ [a] := by
  induction l generalizing n with
  | nil => simp at hn
  | cons x xs ih =>
    cases n with
    | zero => simp
    | succ n =>
      simp only [List.length_cons, Nat.add_lt_add_iff_right] at hn
      simp [List.set, List.take, ih n hn]

/-- The visit with the callbacks of `KeyPathInst_getReferencedFunctions`, from
a count that leaves room for the functions of the component: it returns, the
count grows by the number of functions, and they are stored in visit order
after the entries already counted. -/
theorem visitReferences_addFunction (refs : List KeyPathReference) :
    ∀ (results : KeyPathFunctionResults),
      results.functions.length = maxFunctions → 0 ≤ results.numFunctions →
      results.numFunctions +
          ((KeyPathPatternComponent.mk refs).referencedFunctions.length : Int) ≤
        (maxFunctions : Int) →
      ∃ r', visitReferences KeyPathFunctionResults.addFunction (fun state _ => .ret state)
            refs results = .ret r' ∧
        r'.numFunctions = results.numFunctions +
          ((KeyPathPatternComponent.mk refs).referencedFunctions.length : Int) ∧
        r'.functions.length = maxFunctions ∧
        r'.functions.take r'.numFunctions.toNat =
          results.functions.take results.numFunctions.toNat ++
            (KeyPathPatternComponent.mk refs).referencedFunctions := by
  induction refs with
  | nil =>
    intro results hlen h0 _
    exact ⟨results, rfl, by simp [KeyPathPatternComponent.referencedFunctions], hlen,
      by simp [KeyPathPatternComponent.referencedFunctions]⟩
  | cons r rest ih =>
    intro results hlen h0 hfit
    cases r with
    | function func =>
      simp only [KeyPathPatternComponent.referencedFunctions, List.filterMap_cons,
        List.length_cons, Nat.cast_add, Nat.cast_one] at hfit ⊢
      have hroom : results.numFunctions < (maxFunctions : Int) := by omega
      have hnat : results.numFunctions.toNat < results.functions.length := by
        rw [hlen]
        omega
      obtain ⟨r', hr, hnum, hlen', htake⟩ := ih
        { functions := results.functions.set results.numFunctions.toNat func
          numFunctions := results.numFunctions + 1 }
        (by simp [hlen]) (by simp only; omega)
        (by simp only [KeyPathPatternComponent.referencedFunctions]; omega)
      refine ⟨r', ?_, ?_, hlen', ?_⟩
      · simp only [visitReferences, KeyPathFunctionResults.addFunction, hroom, if_true]
        exact hr
      · simp only [KeyPathPatternComponent.referencedFunctions] at hnum
        rw [hnum]
        omega
      · rw [htake]
        simp only [KeyPathPatternComponent.referencedFunctions]
        have h1 : (results.numFunctions + 1).toNat = results.numFunctions.toNat + 1 := by
          omega
        rw [h1, take_succ_set _ _ _ hnat]
        simp
    | method declRef =>
      simp only [KeyPathPatternComponent.referencedFunctions, List.filterMap_cons] at hfit ⊢
      obtain ⟨r', hr, hnum, hlen', htake⟩ := ih results hlen h0
        (by simp only [KeyPathPatternComponent.referencedFunctions]; exact hfit)
      refine ⟨r', ?_, ?_, hlen', ?_⟩
      · simp only [visitReferences]
        exact hr
      · simpa [KeyPathPatternComponent.referencedFunctions] using hnum
      · simpa [KeyPathPatternComponent.referencedFunctions] using htake

/-- The visit from a count that leaves no room for the functions of the
component fails the assertion. -/
theorem visitReferences_addFunction_fatal (refs : List KeyPathReference) :
    ∀ (results : KeyPathFunctionResults),
      (maxFunctions : Int) < results.numFunctions +
          ((KeyPathPatternComponent.mk refs).referencedFunctions.length : Int) →
      results.numFunctions ≤ (maxFunctions : Int) →
      visitReferences KeyPathFunctionResults.addFunction (fun state _ => .ret state)
        refs results = .fatal := by
  induction refs with
  | nil =>
    intro results hover hle
    simp [KeyPathPatternComponent.referencedFunctions] at hover
    omega
  | cons r rest ih =>
    intro results hover hle
    cases r with
    | function func =>
      simp only [KeyPathPatternComponent.referencedFunctions, List.filterMap_cons,
        List.length_cons, Nat.cast_add, Nat.cast_one] at hover
      by_cases hroom : results.numFunctions < (maxFunctions : Int)
      · simp only [visitReferences, KeyPathFunctionResults.addFunction, hroom, if_true]
        exact ih _ (by simp only [KeyPathPatternComponent.referencedFunctions]; omega)
          (by simp only; omega)
      · simp [visitReferences, KeyPathFunctionResults.addFunction, hroom]
    | method declRef =>
      simp only [KeyPathPatternComponent.referencedFunctions, List.filterMap_cons] at hover
      simp only [visitReferences]
      exact ih results (by simp only [KeyPathPatternComponent.referencedFunctions]; exact hover)
        hle

/-- C18: `KeyPathInst_getNumComponents` is 0 without a pattern and the
component count of the pattern otherwise. For `0 <= componentIdx <
KeyPathInst_getNumComponents()` the pattern is present and holds a component at
that index; if the component references at most `maxFunctions` functions,
`KeyPathInst_getReferencedFunctions` returns with `numFunctions` equal to their
number, whatever `results` held before, with `0 <= numFunctions <= 5` and the
functions stored in visit order in `functions[0..numFunctions)`; with more
functions the assertion fails. -/
theorem KeyPathInst_getReferencedFunctions_spec (kp : KeyPathInst) (componentIdx n : Int)
    (results : KeyPathFunctionResults)
    (hn : BridgedInstruction.KeyPathInst_getNumComponents (.isa kp) = .ret n)
    (h0 : 0 ≤ componentIdx) (hlt : componentIdx < n)
    (hswift : componentIdx < 2 ^ 63)
    (harr : results.functions.length = maxFunctions) :
    BridgedInstruction.KeyPathInst_getNumComponents (.isa { pattern := none }) = .ret 0 ∧
    (∀ pattern : KeyPathPattern,
      BridgedInstruction.KeyPathInst_getNumComponents (.isa { pattern := some pattern }) =
        .ret (pattern.components.length : Int)) ∧
    ∃ pattern comp, kp.pattern = some pattern ∧
      pattern.components[componentIdx.toNat]? = some comp ∧
      (comp.referencedFunctions.length ≤ maxFunctions →
        ∃ r', BridgedInstruction.KeyPathInst_getReferencedFunctions (.isa kp) componentIdx
              results = .ret r' ∧
          r'.numFunctions = (comp.referencedFunctions.length : Int) ∧
          0 ≤ r'.numFunctions ∧ r'.numFunctions ≤ 5 ∧
          r'.functions.take comp.referencedFunctions.length = comp.referencedFunctions) ∧
      (maxFunctions < comp.referencedFunctions.length →
        BridgedInstruction.KeyPathInst_getReferencedFunctions (.isa kp) componentIdx results =
          .fatal) := by
  refine ⟨rfl, fun _ => rfl, ?_⟩
  obtain ⟨pat⟩ := kp
  cases pat with
  | none =>
    simp only [BridgedInstruction.KeyPathInst_getNumComponents, BridgedInstruction.getAsClass,
      Outcome.map, Outcome.ret.injEq] at hn
    omega
  | some pattern =>
    simp only [BridgedInstruction.KeyPathInst_getNumComponents, BridgedInstruction.getAsClass,
      Outcome.map, Outcome.ret.injEq] at hn
    have hin : componentIdx.toNat < pattern.components.length := by omega
    have hsz : toSizeT componentIdx = componentIdx.toNat := by
      simp only [toSizeT, sizeBits]
      have h : componentIdx % ((2 ^ 64 : Nat) : Int) = componentIdx :=
        Int.emod_eq_of_lt h0 (by omega)
      rw [h]
    have hget : pattern.components[componentIdx.toNat]? =
        some pattern.components[componentIdx.toNat] := List.getElem?_eq_getElem hin
    have heta : KeyPathPatternComponent.mk pattern.components[componentIdx.toNat].referenced =
        pattern.components[componentIdx.toNat] := rfl
    refine ⟨pattern, _, rfl, hget, ?_, ?_⟩
    · intro hfit
      obtain ⟨r', hr, hnum, _, htake⟩ := visitReferences_addFunction
        pattern.components[componentIdx.toNat].referenced
        { results with numFunctions := 0 } harr (le_refl _)
        (by
          rw [heta]
          simp only [Int.zero_add]
          exact_mod_cast hfit)
      rw [heta] at hnum htake
      simp only [Int.zero_add] at hnum
      refine ⟨r', ?_, hnum, ?_, ?_, ?_⟩
      · simp only [BridgedInstruction.KeyPathInst_getReferencedFunctions,
          BridgedInstruction.getAsClass, hsz, hget,
          KeyPathPatternComponent.visitReferencedFunctionsAndMethods]
        exact hr
      · rw [hnum]
        exact Int.ofNat_nonneg _
      · rw [hnum]
        have : (maxFunctions : Int) = 5 := rfl
        omega
      · rw [hnum] at htake
        simpa using htake
    · intro hover
      simp only [BridgedInstruction.KeyPathInst_getReferencedFunctions,
        BridgedInstruction.getAsClass, hsz, hget,
        KeyPathPatternComponent.visitReferencedFunctionsAndMethods]
      exact visitReferences_addFunction_fatal _ _
        (by
          rw [heta]
          simp only [Int.zero_add]
          exact_mod_cast hover)
        (by
          simp only
          exact Int.ofNat_nonneg _)

/-- C18 at a key path whose component 0 references the functions 8 and 9 and a
method in between, with a results struct that held other entries: two
functions are stored. -/
theorem KeyPathInst_getReferencedFunctions_spec_witness :
    BridgedInstruction.KeyPathInst_getReferencedFunctions
        (.isa { pattern := some { components :=
          [{ referenced := [.function 8, .method 1, .function 9] }] } })
        0 { functions := [1, 2, 3, 4, 5], numFunctions := 4 } =
      .ret { functions := [8, 9, 3, 4, 5], numFunctions := 2 } ∧
    ∃ pattern comp,
      (KeyPathInst.mk (some { components :=
          [{ referenced := [.function 8, .method 1, .function 9] }] })).pattern =
        some pattern ∧
      pattern.components[(0 : Int).toNat]? = some comp ∧
      (comp.referencedFunctions.length ≤ maxFunctions →
        ∃ r', BridgedInstruction.KeyPathInst_getReferencedFunctions
              (.isa { pattern := some { components :=
                [{ referenced := [.function 8, .method 1, .function 9] }] } })
              0 { functions := [1, 2, 3, 4, 5], numFunctions := 4 } = .ret r' ∧
          r'.numFunctions = (comp.referencedFunctions.length : Int) ∧
          0 ≤ r'.numFunctions ∧ r'.numFunctions ≤ 5 ∧
          r'.functions.take comp.referencedFunctions.length = comp.referencedFunctions) ∧
      (maxFunctions < comp.referencedFunctions.length →
        BridgedInstruction.KeyPathInst_getReferencedFunctions
            (.isa { pattern := some { components :=
              [{ referenced := [.function 8, .method 1, .function 9] }] } })
            0 { functions := [1, 2, 3, 4, 5], numFunctions := 4 } = .fatal) :=
  ⟨by decide,
    (KeyPathInst_getReferencedFunctions_spec
      { pattern := some { components :=
        [{ referenced := [.function 8, .method 1, .function 9] }] } }
      0 1 { functions := [1, 2, 3, 4, 5], numFunctions := 4 }
      (by decide) (by decide) (by decide) (by decide) (by decide)).2.2⟩

/-! ### Structural edits -/

/-- C14: in a well-formed module `getParent` fails its assertion exactly on a
static-initializer instruction, which is in the order of no block, and on any
other instruction returns the one block whose order holds it. -/
theorem getParent_spec (m : SILModule) (hwf : m.WellFormed) (inst : InstId) :
    (SILInstruction.isStaticInitializerInst m inst = true ↔
      ∀ b, inst ∉ (m.block b).insts) ∧
    (BridgedInstruction.getParent m inst = .fatal ↔
      SILInstruction.isStaticInitializerInst m inst = true) ∧
    (SILInstruction.isStaticInitializerInst m inst = false →
      ∃ b, BridgedInstruction.getParent m inst = .ret b ∧ inst ∈ (m.block b).insts ∧
        ∀ b', inst ∈ (m.block b').insts → b' = b) := by
  obtain ⟨_, hpar, _, _⟩ := hwf
  refine ⟨?_, ?_, ?_⟩
  · simp only [SILInstruction.isStaticInitializerInst, decide_eq_true_eq]
    constructor
    · intro h b hb
      rw [hpar b inst hb] at h
      exact h hb
    · intro h
      exact h _
  · unfold BridgedInstruction.getParent
    cases SILInstruction.isStaticInitializerInst m inst <;> simp
  · intro h
    refine ⟨m.instParent inst, ?_, ?_, ?_⟩
    · simp [BridgedInstruction.getParent, h]
    · simpa [SILInstruction.isStaticInitializerInst] using h
    · intro b' hb'
      exact (hpar b' inst hb').symm

/-- C14 in the module of two blocks: instruction 20 is owned by block 1, and
instruction 99, which is in no block, fails the assertion. -/
theorem getParent_spec_witness :
    BridgedInstruction.getParent moduleOfTwoBlocks 20 = .ret 1 ∧
    BridgedInstruction.getParent moduleOfTwoBlocks 99 = .fatal ∧
    ∀ b, 99 ∉ (moduleOfTwoBlocks.block b).insts :=
  have h := getParent_spec moduleOfTwoBlocks wellFormed_moduleOfTwoBlocks 99
  ⟨by decide, by decide, h.1.mp (by decide)⟩

/-- The position of an element that the prefix before it does not hold. -/
theorem indexOf_append_cons_self {α : Type} [DecidableEq α] {X Y : List α} {a : α}
    (h : a ∉ X) : (X ++ a :: Y).indexOf a = X.length := by
  rw [List.indexOf_append_of_not_mem h, List.indexOf_cons_self, Nat.add_zero]

/-- Inserting before an element that the prefix before it does not hold. -/
theorem insertBefore_append_cons {α : Type} [DecidableEq α] {X Y : List α} {a : α} (x : α)
    (h : a ∉ X) : insertBefore (X ++ a :: Y) a x = X ++ x :: a :: Y := by
  simp [insertBefore, indexOf_append_cons_self h]

/-- Inserting after an element that the prefix before it does not hold. -/
theorem insertAfter_append_cons {α : Type} [DecidableEq α] {X Y : List α} {a : α} (x : α)
    (h : a ∉ X) : insertAfter (X ++ a :: Y) a x = X ++ a :: x :: Y := by
  have h1 : (X ++ a :: Y).take (X.length + 1) = X ++ [a] := by
    rw [show X ++ a :: Y = (X ++ [a]) ++ Y by simp]
    exact List.take_left' (by simp)
  have h2 : (X ++ a :: Y).drop (X.length + 1) = Y := by
    rw [show X ++ a :: Y = (X ++ [a]) ++ Y by simp]
    exact List.drop_left' (by simp)
  simp [insertAfter, indexOf_append_cons_self h, h1, h2]

/-- The element right after a prefix is at the index that is the length of the
prefix. -/
theorem getElem?_append_length {α : Type} (X Y : List α) (a : α) :
    (X ++ a :: Y)[X.length]? = some a := by
  rw [List.getElem?_append_right (le_refl _)]
  simp

/-- The second element after a prefix is at the index after the length of the
prefix. -/
theorem getElem?_append_length_succ {α : Type} (X Y : List α) (a b : α) :
    (X ++ a :: b :: Y)[X.length + 1]? = some b := by
  rw [List.getElem?_append_right (by omega)]
  simp

/-- The module after a split, for an instruction `c` at the head of the suffix
`c :: S` of its block `B`. -/
theorem splitBlock_eq (m : SILModule) (hwf : m.WellFormed) (newBlock B : BlockId)
    (P S : List InstId) (c : InstId) (hB : (m.block B).insts = P ++ c :: S) :
    PassContext_splitBlock m newBlock c =
      ({ function := Function.update m.function (m.blockParent B)
           { m.function (m.blockParent B) with
             blocks := insertAfter (m.function (m.blockParent B)).blocks B newBlock }
         block := Function.update
           (Function.update m.block B { m.block B with insts := P })
           newBlock { insts := c :: S, args := [] }
         blockParent := Function.update m.blockParent newBlock (m.blockParent B)
         instParent := fun i => if i ∈ c :: S then newBlock else m.instParent i },
       newBlock) := by
  have hc : m.instParent c = B := hwf.2.1 B c (by rw [hB]; simp)
  have hnd : (P ++ c :: S).Nodup := hB ▸ hwf.1 B
  have hcP : c ∉ P := by
    intro h
    exact (List.nodup_append.mp hnd).2.2 h (List.mem_cons_self c S)
  have hidx : (P ++ c :: S).indexOf c = P.length := indexOf_append_cons_self hcP
  simp only [PassContext_splitBlock, hc, hB, hidx, List.take_left, List.drop_left]

/-- C11: for a block `B` whose order is `P ++ c :: S`, the split at `c` leaves
`B` with `P` and returns a new block holding `c :: S`, placed right after `B`
in the block order of the function, so that `B.getNext()` is the new block;
the predecessor edges of `B` and all other blocks are unchanged, and the
module stays well formed. -/
theorem splitBlock_spec (m : SILModule) (hwf : m.WellFormed)
    (successors : InstId → List BlockId) (newBlock B : BlockId) (P S : List InstId)
    (c : InstId) (hB : (m.block B).insts = P ++ c :: S)
    (hBf : B ∈ (m.function (m.blockParent B)).blocks)
    (hfresh : ∀ f, newBlock ∉ (m.function f).blocks)
    (hempty : (m.block newBlock).insts = []) :
    (PassContext_splitBlock m newBlock c).2 = newBlock ∧
    ((PassContext_splitBlock m newBlock c).1.block B).insts = P ∧
    ((PassContext_splitBlock m newBlock c).1.block B).args = (m.block B).args ∧
    ((PassContext_splitBlock m newBlock c).1.block newBlock).insts = c :: S ∧
    (∀ X Y, (m.function (m.blockParent B)).blocks = X ++ B :: Y →
      ((PassContext_splitBlock m newBlock c).1.function (m.blockParent B)).blocks =
        X ++ B :: newBlock :: Y) ∧
    BridgedBasicBlock.getNext (PassContext_splitBlock m newBlock c).1 B = some newBlock ∧
    BridgedBasicBlock.getFirstInst ((PassContext_splitBlock m newBlock c).1.block newBlock) =
      some c ∧
    (∀ e : BridgedSuccessor,
      isPredecessor successors (PassContext_splitBlock m newBlock c).1 B e =
        isPredecessor successors m B e) ∧
    (∀ b, b ≠ B → b ≠ newBlock →
      (PassContext_splitBlock m newBlock c).1.block b = m.block b) ∧
    (PassContext_splitBlock m newBlock c).1.WellFormed := by
  rw [splitBlock_eq m hwf newBlock B P S c hB]
  obtain ⟨hnd, hpar, hbnd, hbpar⟩ := hwf
  have hne : B ≠ newBlock := fun h => hfresh _ (h ▸ hBf)
  have hne' : newBlock ≠ B := fun h => hne h.symm
  have hndB : (P ++ c :: S).Nodup := hB ▸ hnd B
  have hdisj : ∀ i, i ∈ P → i ∉ c :: S := fun i hi hi' =>
    (List.nodup_append.mp hndB).2.2 hi hi'
  have hsplitX : ∀ X Y, (m.function (m.blockParent B)).blocks = X ++ B :: Y → B ∉ X := by
    intro X Y hXY hX
    have h := hbnd (m.blockParent B)
    rw [hXY] at h
    exact (List.nodup_append.mp h).2.2 hX (List.mem_cons_self B Y)
  have hblocks : ∀ X Y, (m.function (m.blockParent B)).blocks = X ++ B :: Y →
      insertAfter (m.function (m.blockParent B)).blocks B newBlock =
        X ++ B :: newBlock :: Y := by
    intro X Y hXY
    rw [hXY]
    exact insertAfter_append_cons newBlock (hsplitX X Y hXY)
  obtain ⟨X, Y, hXY⟩ := List.append_of_mem hBf
  have hndNew : (X ++ B :: newBlock :: Y).Nodup := by
    have h := hbnd (m.blockParent B)
    rw [hXY] at h
    have hnX : newBlock ∉ X := fun hx =>
      hfresh (m.blockParent B) (by rw [hXY]; simp [hx])
    have hnY : newBlock ∉ Y := fun hy =>
      hfresh (m.blockParent B) (by rw [hXY]; simp [hy])
    rw [List.nodup_append] at h ⊢
    obtain ⟨h1, h2, h3⟩ := h
    rw [List.nodup_cons] at h2
    refine ⟨h1, ?_, ?_⟩
    · rw [List.nodup_cons, List.nodup_cons]
      refine ⟨?_, hnY, h2.2⟩
      simp only [List.mem_cons, not_or]
      exact ⟨hne, h2.1⟩
    · intro a ha hb
      simp only [List.mem_cons] at hb
      rcases hb with hb | hb | hb
      · exact h3 ha (hb ▸ List.mem_cons_self B Y)
      · exact hnX (hb ▸ ha)
      · exact h3 ha (List.mem_cons_of_mem B hb)
  refine ⟨rfl, ?_, ?_, ?_, ?_, ?_, ?_, ?_, ?_, ?_⟩
  · simp [Function.update_apply, hne]
  · simp [Function.update_apply, hne]
  · simp [Function.update_apply]
  · intro X' Y' hXY'
    simp [Function.update_apply, hblocks X' Y' hXY']
  · simp only [BridgedBasicBlock.getNext, Function.update_apply, hne, if_false, if_true,
      hblocks X Y hXY]
    rw [iterNext_eq hndNew (getElem?_append_length X (newBlock :: Y) B)]
    exact getElem?_append_length_succ X Y B newBlock
  · simp [BridgedBasicBlock.getFirstInst, Function.update_apply]
  · intro e
    simp only [isPredecessor]
    congr 1
    by_cases hmoved : e.containingInst ∈ c :: S
    · have hinB : e.containingInst ∈ (m.block B).insts := by
        rw [hB]
        exact List.mem_append_right P hmoved
      have hpe : m.instParent e.containingInst = B := hpar B _ hinB
      simp only [hmoved, if_true, Function.update_apply, hpe, hinB, decide_True]
    · simp only [hmoved, if_false, Function.update_apply]
      by_cases hpn : m.instParent e.containingInst = newBlock
      · simp only [hpn, if_true, hmoved, hempty, List.not_mem_nil]
      · simp only [hpn, if_false]
        by_cases hpB : m.instParent e.containingInst = B
        · simp only [hpB, if_true, hB, List.mem_append, hmoved, or_false]
        · simp only [hpB, if_false]
  · intro b hb hbn
    simp [Function.update_apply, hb, hbn]
  · refine ⟨?_, ?_, ?_, ?_⟩
    · intro b
      simp only [Function.update_apply]
      split
      · exact (List.nodup_append.mp hndB).2.1
      · split
        · exact (List.nodup_append.mp hndB).1
        · exact hnd b
    · intro b i hi
      simp only [Function.update_apply] at hi ⊢
      split at hi
      · next hb =>
        simp only at hi
        simp [hi, hb]
      · split at hi
        · next hbn hb =>
          simp only at hi
          have hin : i ∈ (m.block B).insts := by
            rw [hB]
            exact List.mem_append_left _ hi
          simp only [hdisj i hi, if_false, hb]
          exact hpar B i hin
        · next hbn hb =>
          have hnot : i ∉ c :: S := by
            intro hmv
            have hin : i ∈ (m.block B).insts := by
              rw [hB]
              exact List.mem_append_right P hmv
            exact hb ((hpar b i hi).symm.trans (hpar B i hin))
          simp only [hnot, if_false]
          exact hpar b i hi
    · intro f
      simp only [Function.update_apply]
      split
      · next hf =>
        simp only
        rw [hblocks X Y hXY]
        exact hndNew
      · exact hbnd f
    · intro f b hb
      simp only [Function.update_apply] at hb ⊢
      split at hb
      · next hf =>
        simp only at hb
        rw [hblocks X Y hXY] at hb
        subst hf
        split
        · rfl
        · apply hbpar
          rw [hXY]
          simp only [List.mem_append, List.mem_cons] at hb ⊢
          rcases hb with hb | hb | hb | hb
          · exact Or.inl hb
          · exact Or.inr (Or.inl hb)
          · next hbn => exact absurd hb hbn
          · exact Or.inr (Or.inr hb)
      · have hbn : b ≠ newBlock := fun h => hfresh f (h ▸ hb)
        simp only [hbn, if_false]
        exact hbpar f b hb

/-- C11 at the block `10, 11, 12, 13` of the module of two blocks, split at 12
into the new block 2: the block keeps `10, 11`, the new block holds `12, 13`
and the block order becomes `0, 2, 1`. -/
theorem splitBlock_spec_witness :
    ((PassContext_splitBlock moduleOfTwoBlocks 2 12).1.block 0).insts = [10, 11] ∧
    ((PassContext_splitBlock moduleOfTwoBlocks 2 12).1.block 2).insts = [12, 13] ∧
    ((PassContext_splitBlock moduleOfTwoBlocks 2 12).1.function 0).blocks = [0, 2, 1] ∧
    BridgedBasicBlock.getNext (PassContext_splitBlock moduleOfTwoBlocks 2 12).1 0 = some 2 :=
  have hfresh : ∀ f, 2 ∉ (moduleOfTwoBlocks.function f).blocks := by
    intro f
    simp only [moduleOfTwoBlocks]
    split <;> decide
  have h := splitBlock_spec moduleOfTwoBlocks wellFormed_moduleOfTwoBlocks (fun _ => [])
    2 0 [10, 11] [13] 12 (by decide) (by decide) hfresh (by decide)
  ⟨h.2.1, h.2.2.2.1, h.2.2.2.2.1 [] [1] (by decide), h.2.2.2.2.2.1⟩

/-- Placing a new instruction in the order of one block, with that block as
its parent, keeps the module well formed. -/
theorem wellFormed_insert (m : SILModule) (hwf : m.WellFormed) (newInst : InstId)
    (hnew : ∀ b, newInst ∉ (m.block b).insts) (b : BlockId) (insts : List InstId)
    (hnd : insts.Nodup)
    (hsub : ∀ i ∈ insts, i = newInst ∨ i ∈ (m.block b).insts) :
    SILModule.WellFormed
      { m with
        block := Function.update m.block b { m.block b with insts := insts }
        instParent := Function.update m.instParent newInst b } := by
  obtain ⟨hnd0, hpar, hbnd, hbpar⟩ := hwf
  refine ⟨?_, ?_, hbnd, hbpar⟩
  · intro b'
    simp only [Function.update_apply]
    split
    · exact hnd
    · exact hnd0 b'
  · intro b' i hi
    simp only [Function.update_apply] at hi ⊢
    split at hi
    · next hb =>
      simp only at hi
      rcases hsub i hi with h | h
      · simp [h, hb]
      · have hne : i ≠ newInst := fun he => hnew b (he ▸ h)
        simp only [hne, if_false, hb]
        exact hpar b i h
    · have hne : i ≠ newInst := fun he => hnew b' (he ▸ hi)
      simp only [hne, if_false]
      exact hpar b' i hi

/-- C12: with the insertion point before an instruction `I`, a creation
returns the new instruction placed right before `I` in the block of `I`, so
that `getNext()` of the new instruction is `I`, and the instructions that were
there keep their relative order; with the insertion point at the end of a block
`B`, the new instruction becomes the last instruction of `B`, and the creation
fails if `B` ends in a terminator. The module stays well formed. -/
theorem SILBuilder_create_spec (isTermInst : InstId → Bool) (m : SILModule)
    (hwf : m.WellFormed) (builder : BridgedBuilder) (newInst : InstId)
    (hnew : ∀ b, newInst ∉ (m.block b).insts) :
    (∀ I P S, builder.insertBefore = some I →
      (m.block (m.instParent I)).insts = P ++ I :: S →
      ∃ m', SILBuilder_create isTermInst m builder newInst = .ret (m', newInst) ∧
        (m'.block (m.instParent I)).insts = P ++ newInst :: I :: S ∧
        BridgedInstruction.getNext m' newInst = some I ∧
        (m'.block (m.instParent I)).insts.erase newInst = (m.block (m.instParent I)).insts ∧
        (∀ b, b ≠ m.instParent I → m'.block b = m.block b) ∧
        m'.WellFormed) ∧
    (∀ B, builder.insertBefore = none → builder.insertAtEnd = some B →
      ((∀ last, (m.block B).insts.getLast? = some last → isTermInst last = false) →
        ∃ m', SILBuilder_create isTermInst m builder newInst = .ret (m', newInst) ∧
          (m'.block B).insts = (m.block B).insts ++ [newInst] ∧
          BridgedBasicBlock.getLastInst (m'.block B) = some newInst ∧
          (∀ b, b ≠ B → m'.block b = m.block b) ∧
          m'.WellFormed) ∧
      (∀ last, (m.block B).insts.getLast? = some last → isTermInst last = true →
        SILBuilder_create isTermInst m builder newInst = .fatal)) := by
  refine ⟨?_, ?_⟩
  · intro I P S hI hlist
    have hndB : (P ++ I :: S).Nodup := hlist ▸ hwf.1 (m.instParent I)
    have hIP : I ∉ P := fun h =>
      (List.nodup_append.mp hndB).2.2 h (List.mem_cons_self I S)
    have hnotin : newInst ∉ P ++ I :: S := hlist ▸ hnew (m.instParent I)
    have hnP : newInst ∉ P := fun h => hnotin (List.mem_append_left _ h)
    have hins : insertBefore (m.block (m.instParent I)).insts I newInst =
        P ++ newInst :: I :: S := by
      rw [hlist]
      exact insertBefore_append_cons newInst hIP
    have hndNew : (P ++ newInst :: I :: S).Nodup := by
      rw [List.nodup_append] at hndB ⊢
      obtain ⟨h1, h2, h3⟩ := hndB
      refine ⟨h1, ?_, ?_⟩
      · rw [List.nodup_cons]
        exact ⟨fun h => hnotin (List.mem_append_right P h), h2⟩
      · intro a ha hb
        simp only [List.mem_cons] at hb
        rcases hb with hb | hb | hb
        · exact hnP (hb ▸ ha)
        · exact h3 ha (hb ▸ List.mem_cons_self I S)
        · exact h3 ha (List.mem_cons_of_mem I hb)
    refine ⟨{ m with
        block := Function.update m.block (m.instParent I)
          { m.block (m.instParent I) with
            insts := insertBefore (m.block (m.instParent I)).insts I newInst }
        instParent := Function.update m.instParent newInst (m.instParent I) },
      ?_, ?_, ?_, ?_, ?_, ?_⟩
    · simp only [SILBuilder_create, hI]
    · simp [Function.update_apply, hins]
    · simp only [BridgedInstruction.getNext, Function.update_apply, if_true, hins]
      rw [iterNext_eq hndNew (getElem?_append_length P (I :: S) newInst)]
      exact getElem?_append_length_succ P S newInst I
    · simp only [Function.update_apply, if_true]
      rw [hins, hlist, List.erase_append_right _ hnP, List.erase_cons_head]
    · intro b hb
      simp [Function.update_apply, hb]
    · refine wellFormed_insert m hwf newInst hnew (m.instParent I) _ (hins ▸ hndNew) ?_
      intro i hi
      rw [hins] at hi
      rw [hlist]
      simp only [List.mem_append, List.mem_cons] at hi ⊢
      rcases hi with hi | hi | hi | hi
      · exact Or.inr (Or.inl hi)
      · exact Or.inl hi
      · exact Or.inr (Or.inr (Or.inl hi))
      · exact Or.inr (Or.inr (Or.inr hi))
  · intro B hnone hB
    refine ⟨?_, ?_⟩
    · intro hterm
      have hcond : ((m.block B).insts.getLast?.map isTermInst).getD false = false := by
        cases hl : (m.block B).insts.getLast? with
        | none => rfl
        | some last => simp [hterm last hl]
      refine ⟨{ m with
          block := Function.update m.block B
            { m.block B with insts := (m.block B).insts ++ [newInst] }
          instParent := Function.update m.instParent newInst B },
        ?_, ?_, ?_, ?_, ?_⟩
      · simp [SILBuilder_create, hnone, hB, hcond]
      · simp [Function.update_apply]
      · simp [BridgedBasicBlock.getLastInst, Function.update_apply]
      · intro b hb
        simp [Function.update_apply, hb]
      · refine wellFormed_insert m hwf newInst hnew B _ ?_ ?_
        · rw [List.nodup_append]
          refine ⟨hwf.1 B, List.nodup_singleton _, ?_⟩
          intro a ha hb
          simp only [List.mem_singleton] at hb
          exact hnew B (hb ▸ ha)
        · intro i hi
          simp only [List.mem_append, List.mem_singleton] at hi
          rcases hi with hi | hi
          · exact Or.inr hi
          · exact Or.inl hi
    · intro last hl hterm
      simp [SILBuilder_create, hnone, hB, hl, hterm]

/-- C12 in the module of two blocks: a creation before instruction 12 places
the new instruction 30 between 11 and 12, and its `getNext()` is 12. -/
theorem SILBuilder_create_spec_witness :
    ∃ m', SILBuilder_create (fun i => decide (i = 13)) moduleOfTwoBlocks
          { insertBefore := some 12, insertAtEnd := none, loc := 0 } 30 = .ret (m', 30) ∧
      (m'.block (moduleOfTwoBlocks.instParent 12)).insts = [10, 11] ++ 30 :: 12 :: [13] ∧
      BridgedInstruction.getNext m' 30 = some 12 ∧
      (m'.block (moduleOfTwoBlocks.instParent 12)).insts.erase 30 =
        (moduleOfTwoBlocks.block (moduleOfTwoBlocks.instParent 12)).insts ∧
      (∀ b, b ≠ moduleOfTwoBlocks.instParent 12 → m'.block b = moduleOfTwoBlocks.block b) ∧
      m'.WellFormed :=
  have hnew : ∀ b, 30 ∉ (moduleOfTwoBlocks.block b).insts := by
    intro b
    simp only [moduleOfTwoBlocks]
    split
    · decide
    · split <;> decide
  (SILBuilder_create_spec (fun i => decide (i = 13)) moduleOfTwoBlocks
    wellFormed_moduleOfTwoBlocks { insertBefore := some 12, insertAtEnd := none, loc := 0 }
    30 hnew).1 12 [10, 11] [13] rfl (by decide)

end SILBridging

namespace OpenedExistentials

/-- Masking a 4-bit field with `notCovariant` tests the three flags other
than `Covariant`. -/
theorem notCovariant_split (d : Fin (2 ^ NumTypePositionBits)) :
    (d.val &&& GenericParameterReferenceInfo.notCovariant != 0) =
      ((d.val &&& TypePosition.Contravariant.value != 0 ||
        d.val &&& TypePosition.Invariant.value != 0) ||
        d.val &&& TypePosition.Shape.value != 0) := by
  revert d
  decide

/-- C8: `hasNonCovariantRef()` is true if and only if some position other than
`Covariant` has a direct reference or a dependent-member-type reference; an
info whose only recorded positions are `Covariant` reports false. -/
theorem hasNonCovariantRef_iff (info : GenericParameterReferenceInfo) :
    (info.hasNonCovariantRef = true ↔
      ∃ p : TypePosition, p ≠ .Covariant ∧
        (info.hasDirectRef (some p) = true ∨
          info.hasDependentMemberTypeRef (some p) = true)) ∧
    ((∀ p : TypePosition, p ≠ .Covariant →
        info.hasDirectRef (some p) = false ∧
          info.hasDependentMemberTypeRef (some p) = false) →
      info.hasNonCovariantRef = false) := by
  have key : info.hasNonCovariantRef = true ↔
      ∃ p : TypePosition, p ≠ .Covariant ∧
        (info.hasDirectRef (some p) = true ∨
          info.hasDependentMemberTypeRef (some p) = true) := by
    constructor
    · intro h
      simp only [GenericParameterReferenceInfo.hasNonCovariantRef, Bool.or_eq_true] at h
      rcases h with h | h
      · rw [notCovariant_split] at h
        simp only [Bool.or_eq_true] at h
        rcases h with (h | h) | h
        · exact ⟨.Contravariant, by decide, Or.inl h⟩
        · exact ⟨.Invariant, by decide, Or.inl h⟩
        · exact ⟨.Shape, by decide, Or.inl h⟩
      · rw [notCovariant_split] at h
        simp only [Bool.or_eq_true] at h
        rcases h with (h | h) | h
        · exact ⟨.Contravariant, by decide, Or.inr h⟩
        · exact ⟨.Invariant, by decide, Or.inr h⟩
        · exact ⟨.Shape, by decide, Or.inr h⟩
    · rintro ⟨p, hp, h⟩
      simp only [GenericParameterReferenceInfo.hasNonCovariantRef, Bool.or_eq_true]
      rcases h with h | h
      · left
        rw [notCovariant_split]
        cases p
        · exact absurd rfl hp
        all_goals simp only [Bool.or_eq_true]
        · exact Or.inl (Or.inl h)
        · exact Or.inl (Or.inr h)
        · exact Or.inr h
      · right
        rw [notCovariant_split]
        cases p
        · exact absurd rfl hp
        all_goals simp only [Bool.or_eq_true]
        · exact Or.inl (Or.inl h)
        · exact Or.inl (Or.inr h)
        · exact Or.inr h
  refine ⟨key, fun h => ?_⟩
  cases hn : info.hasNonCovariantRef with
  | false => rfl
  | true =>
    obtain ⟨p, hp, hq⟩ := key.mp hn
    have := h p hp
    rcases hq with hq | hq
    · rw [this.1] at hq; exact absurd hq (by decide)
    · rw [this.2] at hq; exact absurd hq (by decide)

/-- A 4-bit field is nonzero exactly when one of the four position flags is
set in it. -/
theorem field_ne_zero_split (d : Fin (2 ^ NumTypePositionBits)) :
    (d.val != 0) =
      (((d.val &&& TypePosition.Covariant.value != 0 ||
        d.val &&& TypePosition.Contravariant.value != 0) ||
        d.val &&& TypePosition.Invariant.value != 0) ||
        d.val &&& TypePosition.Shape.value != 0) := by
  revert d
  decide

/-- A field masked with `notCovariant` is nonzero only if the field is. -/
theorem field_ne_zero_of_notCovariant (d : Fin (2 ^ NumTypePositionBits)) :
    (d.val &&& GenericParameterReferenceInfo.notCovariant != 0) = true →
      (d.val != 0) = true := by
  revert d
  decide

/-- C15: `forDirectRef(p)` records only a direct reference at `p`, and
`forDependentMemberTypeRef(p)` only a dependent-member-type reference at `p`;
neither sets the covariant-result flag, and the 4-bit field holds the flag of
`p` unchanged. -/
theorem forDirectRef_forDependentMemberTypeRef_spec (p : TypePosition) :
    (∀ q, (GenericParameterReferenceInfo.forDirectRef p).hasDirectRef (some q) = true ↔
      q = p) ∧
    (GenericParameterReferenceInfo.forDirectRef p).hasDirectRef none = true ∧
    (∀ q, (GenericParameterReferenceInfo.forDirectRef p).hasDependentMemberTypeRef (some q)
      = false) ∧
    (GenericParameterReferenceInfo.forDirectRef p).hasDependentMemberTypeRef none = false ∧
    (GenericParameterReferenceInfo.forDirectRef p).hasCovariantGenericParamResult = false ∧
    (∀ q, (GenericParameterReferenceInfo.forDependentMemberTypeRef p).hasDependentMemberTypeRef
      (some q) = true ↔ q = p) ∧
    (GenericParameterReferenceInfo.forDependentMemberTypeRef p).hasDependentMemberTypeRef none
      = true ∧
    (∀ q, (GenericParameterReferenceInfo.forDependentMemberTypeRef p).hasDirectRef (some q)
      = false) ∧
    (GenericParameterReferenceInfo.forDependentMemberTypeRef p).hasDirectRef none = false ∧
    (GenericParameterReferenceInfo.forDependentMemberTypeRef p).hasCovariantGenericParamResult
      = false ∧
    (GenericParameterReferenceInfo.forDirectRef p).DirectRefs.val = p.value ∧
    (GenericParameterReferenceInfo.forDependentMemberTypeRef p).DepMemberTyRefs.val =
      p.value := by
  refine ⟨?_, ?_, ?_, ?_, ?_, ?_, ?_, ?_, ?_, ?_, ?_, ?_⟩
  · intro q
    cases p <;> cases q <;> decide
  · cases p <;> decide
  · intro q
    cases p <;> cases q <;> decide
  · cases p <;> decide
  · cases p <;> decide
  · intro q
    cases p <;> cases q <;> decide
  · cases p <;> decide
  · intro q
    cases p <;> cases q <;> decide
  · cases p <;> decide
  · cases p <;> decide
  · cases p <;> decide
  · cases p <;> decide

/-- C16: `forCovariantGenericParamResult()` is a direct reference in covariant
position and nothing else, with the covariant-result flag set; and each info
built by a public constructor that has the flag set has a direct reference at
`Covariant`. -/
theorem forCovariantGenericParamResult_spec :
    GenericParameterReferenceInfo.forCovariantGenericParamResult.hasCovariantGenericParamResult
      = true ∧
    GenericParameterReferenceInfo.forCovariantGenericParamResult.hasDirectRef
      (some .Covariant) = true ∧
    (∀ p : TypePosition, p ≠ .Covariant →
      GenericParameterReferenceInfo.forCovariantGenericParamResult.hasDirectRef (some p)
        = false) ∧
    GenericParameterReferenceInfo.forCovariantGenericParamResult.hasDependentMemberTypeRef none
      = false ∧
    GenericParameterReferenceInfo.forCovariantGenericParamResult.hasNonCovariantRef = false ∧
    (GenericParameterReferenceInfo.default.hasCovariantGenericParamResult = true →
      GenericParameterReferenceInfo.default.hasDirectRef (some .Covariant) = true) ∧
    (∀ p : TypePosition,
      (GenericParameterReferenceInfo.forDirectRef p).hasCovariantGenericParamResult = true →
        (GenericParameterReferenceInfo.forDirectRef p).hasDirectRef (some .Covariant) = true) ∧
    (∀ p : TypePosition,
      (GenericParameterReferenceInfo.forDependentMemberTypeRef p).hasCovariantGenericParamResult
          = true →
        (GenericParameterReferenceInfo.forDependentMemberTypeRef p).hasDirectRef
          (some .Covariant) = true) ∧
    (GenericParameterReferenceInfo.forCovariantGenericParamResult.hasCovariantGenericParamResult
        = true →
      GenericParameterReferenceInfo.forCovariantGenericParamResult.hasDirectRef
        (some .Covariant) = true) := by
  refine ⟨by decide, by decide, ?_, by decide, by decide, by decide, ?_, ?_, by decide⟩
  · intro p hp
    cases p
    · exact absurd rfl hp
    all_goals decide
  · intro p
    cases p <;> decide
  · intro p
    cases p <;> decide

/-- C19: the boolean conversion of an info is true exactly when `hasDirectRef()`
or `hasDependentMemberTypeRef()` is, that is when some position is recorded in
either field; the default-constructed info converts to false and has no
reference at any position; `hasNonCovariantRef()` implies the conversion. -/
theorem toBool_spec (info : GenericParameterReferenceInfo) :
    (info.toBool = true ↔
      info.hasDirectRef none = true ∨ info.hasDependentMemberTypeRef none = true) ∧
    (info.toBool = true ↔
      ∃ p : TypePosition, info.hasDirectRef (some p) = true ∨
        info.hasDependentMemberTypeRef (some p) = true) ∧
    GenericParameterReferenceInfo.default.toBool = false ∧
    GenericParameterReferenceInfo.default.hasDirectRef none = false ∧
    GenericParameterReferenceInfo.default.hasDependentMemberTypeRef none = false ∧
    (∀ p : TypePosition,
      GenericParameterReferenceInfo.default.hasDirectRef (some p) = false ∧
        GenericParameterReferenceInfo.default.hasDependentMemberTypeRef (some p) = false) ∧
    (info.hasNonCovariantRef = true → info.toBool = true) := by
  have hsome : ∀ d : Fin (2 ^ NumTypePositionBits), (d.val != 0) = true ↔
      ∃ p : TypePosition, (d.val &&& p.value != 0) = true := by
    intro d
    rw [field_ne_zero_split]
    simp only [Bool.or_eq_true]
    constructor
    · rintro (((h | h) | h) | h)
      · exact ⟨.Covariant, h⟩
      · exact ⟨.Contravariant, h⟩
      · exact ⟨.Invariant, h⟩
      · exact ⟨.Shape, h⟩
    · rintro ⟨p, h⟩
      cases p
      · exact Or.inl (Or.inl (Or.inl h))
      · exact Or.inl (Or.inl (Or.inr h))
      · exact Or.inl (Or.inr h)
      · exact Or.inr h
  refine ⟨?_, ?_, by decide, by decide, by decide, ?_, ?_⟩
  · simp [GenericParameterReferenceInfo.toBool]
  · simp only [GenericParameterReferenceInfo.toBool, Bool.or_eq_true,
      GenericParameterReferenceInfo.hasDirectRef,
      GenericParameterReferenceInfo.hasDependentMemberTypeRef]
    rw [hsome, hsome]
    constructor
    · rintro (⟨p, h⟩ | ⟨p, h⟩)
      · exact ⟨p, Or.inl h⟩
      · exact ⟨p, Or.inr h⟩
    · rintro ⟨p, h | h⟩
      · exact Or.inl ⟨p, h⟩
      · exact Or.inr ⟨p, h⟩
  · intro p
    cases p <;> decide
  · intro h
    simp only [GenericParameterReferenceInfo.hasNonCovariantRef, Bool.or_eq_true] at h
    simp only [GenericParameterReferenceInfo.toBool, Bool.or_eq_true,
      GenericParameterReferenceInfo.hasDirectRef,
      GenericParameterReferenceInfo.hasDependentMemberTypeRef]
    rcases h with h | h
    · exact Or.inl (field_ne_zero_of_notCovariant _ h)
    · exact Or.inr (field_ne_zero_of_notCovariant _ h)

end OpenedExistentials
